import Mathlib

/-!
Verification of the nescience-testnet privacy core against its specification.

The Rust sources are embedded shallowly: pure Rust functions become Lean
functions, struct fields keep their names, machine integers are natural
numbers with explicit reduction modulo 2 ^ w where wrap-around matters, and
fallible code returns Option or Except values.  External crates (sha2,
chacha20, monotree, k256, hmac_sha512) are modelled at the level of their
documented interface contracts; every such modelling choice is recorded in
the doc comment of the corresponding definition.  Repository code that is
known only through its callers or tests is modelled from the specification
and marked as such.
-/

set_option maxRecDepth 4000

namespace NssaSpec

/-- Little-endian byte encoding of a natural number in w bytes, as produced by
the Rust to_le_bytes methods on machine integers (the value is reduced modulo
2 ^ (8 w) by construction of the digits). -/
def leBytes : Nat → Nat → List Nat
  | 0, _ => []
  | w + 1, n => n % 256 :: leBytes w (n / 256)

/-- Little-endian byte decoding, the left inverse of leBytes on values in range. -/
def leDecode (bs : List Nat) : Nat :=
  bs.foldr (fun b acc => b + 256 * acc) 0

/-- Big-endian byte encoding of a natural number in w bytes. -/
def beBytes : Nat → Nat → List Nat
  | 0, _ => []
  | w + 1, n => beBytes w (n / 256) ++ [n % 256]

/-- Big-endian byte decoding. -/
def beDecode (bs : List Nat) : Nat :=
  bs.foldl (fun acc b => acc * 256 + b) 0

/-- Decides whether an Except value is an error. -/
def isErr : Except ε α → Bool
  | .error _ => true
  | .ok _ => false

/-! ## Accounts and the execution validator (src/nssa/core/src/program.rs)

The Account struct itself lives in account.rs, which is not under src; its
shape is modelled from the specification, section 3. -/

/-- Modelled from the spec: the Account record of nssa-core (account.rs is not
under src).  program_owner is an 8-word u32 program id, balance and nonce are
u128 values, data is a byte vector.  The all-zero default value denotes an
unclaimed account. -/
structure Account where
  program_owner : List Nat
  balance : Nat
  data : List Nat
  nonce : Nat
deriving DecidableEq

/-- Account::default(): all fields zero / empty. -/
def Account.default : Account :=
  { program_owner := List.replicate 8 0, balance := 0, data := [], nonce := 0 }

/-- Modelled from the spec: an Account plus authorization metadata and an
account id (derived from a nullifier public key for private accounts).  The
account_id field appears in the newer nssa-core used by the guest circuit;
validate_execution does not read it. -/
structure AccountWithMetadata where
  account : Account
  is_authorized : Bool
  account_id : List Nat
deriving DecidableEq

/-- ProgramId = [u32; 8]. -/
abbrev ProgramId := List Nat

/-- DEFAULT_PROGRAM_ID: ProgramId = [0; 8]. -/
def DEFAULT_PROGRAM_ID : ProgramId := List.replicate 8 0

/-- Wrapping u128 sum, as computed by the Iterator::sum::<u128> calls in
validate_execution (release-mode wrap-around arithmetic). -/
def sumU128 (l : List Nat) : Nat :=
  l.foldl (fun acc b => (acc + b) % 2 ^ 128) 0

/-- The per-pair checks of validate_execution, conditions 2 to 5 of the loop
body in src/nssa/core/src/program.rs. -/
def validate_pair (pre : AccountWithMetadata) (post : Account) (pid : ProgramId) : Bool :=
  if pre.account.nonce ≠ post.nonce then false
  else if pre.account.program_owner ≠ post.program_owner ∧ pre.account ≠ Account.default then
    false
  else if post.balance < pre.account.balance ∧ pre.account.program_owner ≠ pid then false
  else if pre.account.data ≠ post.data ∧
      (pid ≠ pre.account.program_owner ∨ pid ≠ post.program_owner) then false
  else true

/-- validate_execution from src/nssa/core/src/program.rs: length check, the
per-pair loop (an early false return is equivalent to the conjunction over the
zipped lists), and the balance conservation check. -/
def validate_execution (pre_states : List AccountWithMetadata) (post_states : List Account)
    (executing_program_id : ProgramId) : Bool :=
  if pre_states.length ≠ post_states.length then false
  else if ¬ ((pre_states.zip post_states).all fun pq =>
      validate_pair pq.1 pq.2 executing_program_id) then false
  else if sumU128 (pre_states.map fun p => p.account.balance) ≠
      sumU128 (post_states.map fun p => p.balance) then false
  else true

/-- The conditions claim C1 states for one account index, written from the
claim text. -/
def PairSpec (pre : AccountWithMetadata) (post : Account) (pid : ProgramId) : Prop :=
  pre.account.nonce = post.nonce ∧
  (pre.account.program_owner ≠ post.program_owner → pre.account = Account.default) ∧
  (post.balance < pre.account.balance → pre.account.program_owner = pid) ∧
  (pre.account.data ≠ post.data →
    pre.account.program_owner = pid ∧ post.program_owner = pid)

/-- The full property claim C1 states: equal lengths, all per-index
conditions, and conservation of the u128 balance sums. -/
def ValidateSpec (pre : List AccountWithMetadata) (post : List Account)
    (pid : ProgramId) : Prop :=
  pre.length = post.length ∧
  (∀ i, (h1 : i < pre.length) → (h2 : i < post.length) →
    PairSpec (pre.get ⟨i, h1⟩) (post.get ⟨i, h2⟩) pid) ∧
  sumU128 (pre.map fun p => p.account.balance) = sumU128 (post.map fun p => p.balance)

end NssaSpec

namespace Smt

/-! ## Nullifier sparse Merkle tree (src/common/src/nullifier_sparse_merkle_tree.rs)

The backing monotree crate is external.  It is modelled by its authenticated
set contract: a root value determines the set of leaves it authenticates, so a
root is represented directly by the list of distinct leaves inserted under it;
an absent root is the empty set.  The monotree database may retain partial
node writes on a failed call; the wrapper fields observable to callers and
named by the claims, curr_root and leafs, are the state modelled here. -/

/-- TreeHashType = [u8; 32], modelled as a byte list. -/
abbrev TreeHashType := List Nat

/-- UTXONullifier from src/common/src/nullifier.rs. -/
structure UTXONullifier where
  utxo_hash : TreeHashType
deriving DecidableEq

/-- NullifierTreeInput. -/
structure NullifierTreeInput where
  nullifier_id : Nat
  tx_id : Nat
  block_id : Nat
  nullifier : UTXONullifier
deriving DecidableEq

/-- TreeTxWithNullifierId; the BTreeMap is modelled as a key-sorted
association list. -/
structure TreeTxWithNullifierId where
  id : Nat
  nullifiers : List (Nat × UTXONullifier)
deriving DecidableEq

/-- TreeBlockWithTxId. -/
structure TreeBlockWithTxId where
  id : Nat
  txs : List (Nat × TreeTxWithNullifierId)
deriving DecidableEq

/-- BTreeMap::insert on a key-sorted association list: replace an existing
binding or insert at the sorted position. -/
def btInsert (k : Nat) (v : α) : List (Nat × α) → List (Nat × α)
  | [] => [(k, v)]
  | (k', v') :: rest =>
    if k < k' then (k, v) :: (k', v') :: rest
    else if k = k' then (k, v) :: rest
    else (k', v') :: btInsert k v rest

/-- BTreeMap::entry(k).and_modify(f): apply f to the value bound to k if
present, otherwise leave the map unchanged. -/
def btModify (k : Nat) (f : α → α) : List (Nat × α) → List (Nat × α)
  | [] => []
  | (k', v') :: rest =>
    if k = k' then (k', f v') :: rest else (k', v') :: btModify k f rest

/-- BTreeMap::contains_key. -/
def btContains (k : Nat) (m : List (Nat × α)) : Bool :=
  m.any fun kv => kv.1 = k

/-- entry(k).and_modify(f).or_insert(d): modify in place when the key exists,
insert the default value d otherwise. -/
def entryModifyOrInsert (k : Nat) (f : α → α) (d : α) (m : List (Nat × α)) : List (Nat × α) :=
  if btContains k m then btModify k f m else btInsert k d m

/-- modify_leavs_with_nullifier_input: the nested entry / and_modify /
or_insert cascade from the source.  Note that, as in the source, a freshly
inserted block is created with an empty txs map and a freshly inserted tx
with an empty nullifiers map. -/
def modify_leavs_with_nullifier_input (m : List (Nat × TreeBlockWithTxId))
    (tn : NullifierTreeInput) : List (Nat × TreeBlockWithTxId) :=
  entryModifyOrInsert tn.block_id
    (fun blk =>
      { blk with txs :=
          (entryModifyOrInsert tn.tx_id
            (fun tx =>
              { tx with nullifiers :=
                  (btInsert tn.nullifier_id tn.nullifier tx.nullifiers) })
            ⟨tn.tx_id, []⟩ blk.txs) })
    ⟨tn.block_id, []⟩ m

/-- A monotree root modelled by the leaf set it authenticates. -/
abbrev MtRoot := List TreeHashType

/-- monotree::Errors. -/
structure MtError where
  msg : String
deriving DecidableEq

/-- Inserting one leaf into the set authenticated by a root (leaf = key =
value in this tree, so re-inserting an existing leaf leaves the root fixed). -/
def mtRootInsert (r : MtRoot) (k : TreeHashType) : MtRoot :=
  if k ∈ r then r else k :: r

/-- Monotree::insert modelled on root sets: always succeeds in the in-memory
instantiation and returns the root of the enlarged set. -/
def mtInsert (root : Option MtRoot) (k : TreeHashType) : Except MtError (Option MtRoot) :=
  .ok (some (mtRootInsert (root.getD []) k))

/-- Monotree::inserts: sequential insertion of a batch; an empty batch leaves
the root untouched. -/
def mtInserts (root : Option MtRoot) (keys : List TreeHashType) :
    Except MtError (Option MtRoot) :=
  match keys with
  | [] => .ok root
  | _ => .ok (some (keys.foldl mtRootInsert (root.getD [])))

/-- Monotree::get: membership of the key under the given root. -/
def mtGet (root : Option MtRoot) (k : TreeHashType) : Except MtError (Option TreeHashType) :=
  .ok (match root with
    | none => none
    | some r => if k ∈ r then some k else none)

/-- Monotree::get_merkle_proof: no proof exists under an absent root; under a
present root the authentication data is abstracted by the pair of the root
set and the key. -/
def mtProof (root : Option MtRoot) (k : TreeHashType) :
    Except MtError (Option (MtRoot × TreeHashType)) :=
  .ok (match root with
    | none => none
    | some r => some (r, k))

/-- NullifierSparseMerkleTree: curr_root and the leafs map (the embedded
Monotree and Blake3 hasher fields are folded into the root model above). -/
structure NullifierSparseMerkleTree where
  curr_root : Option MtRoot
  leafs : List (Nat × TreeBlockWithTxId)
deriving DecidableEq

/-- NullifierSparseMerkleTree::new. -/
def NullifierSparseMerkleTree.new : NullifierSparseMerkleTree :=
  { curr_root := none, leafs := [] }

/-- insert_items, parameterized by the behavior of the external
Monotree::inserts call so that the failure path of the foreign function is
covered; on error the question-mark operator returns before curr_root or
leafs are touched. -/
def insert_items_with
    (ins : Option MtRoot → List TreeHashType → Except MtError (Option MtRoot))
    (st : NullifierSparseMerkleTree) (tns : List NullifierTreeInput) :
    Except MtError Unit × NullifierSparseMerkleTree :=
  let hashes := tns.map fun tn => tn.nullifier.utxo_hash
  match ins st.curr_root hashes with
  | .error e => (.error e, st)
  | .ok newRoot =>
    (.ok (), { curr_root := newRoot,
               leafs := tns.foldl modify_leavs_with_nullifier_input st.leafs })

/-- insert_items with the concrete monotree model. -/
def insert_items (st : NullifierSparseMerkleTree) (tns : List NullifierTreeInput) :
    Except MtError Unit × NullifierSparseMerkleTree :=
  insert_items_with mtInserts st tns

/-- insert_item. -/
def insert_item (st : NullifierSparseMerkleTree) (tn : NullifierTreeInput) :
    Except MtError Unit × NullifierSparseMerkleTree :=
  match mtInsert st.curr_root tn.nullifier.utxo_hash with
  | .error e => (.error e, st)
  | .ok newRoot =>
    (.ok (), { curr_root := newRoot,
               leafs := modify_leavs_with_nullifier_input st.leafs tn })

/-- search_item_inclusion. -/
def search_item_inclusion (st : NullifierSparseMerkleTree) (h : TreeHashType) :
    Except MtError Bool :=
  (mtGet st.curr_root h).map Option.isSome

/-- get_non_membership_proof: fails with the Is-a-member logic error when
the leaf is present, otherwise pairs a merkle proof (possibly none) with the
current root. -/
def get_non_membership_proof (st : NullifierSparseMerkleTree) (h : TreeHashType) :
    Except MtError (Option (MtRoot × TreeHashType) × Option MtRoot) :=
  match search_item_inclusion st h with
  | .error e => .error e
  | .ok true => .error ⟨"Is a member"⟩
  | .ok false =>
    match mtProof st.curr_root h with
    | .error e => .error e
    | .ok pf => .ok (pf, st.curr_root)

/-- A tree state reached from new by a sequence of insert_items batches. -/
def applyBatches (batches : List (List NullifierTreeInput)) : NullifierSparseMerkleTree :=
  batches.foldl (fun st b => (insert_items st b).2) .new

/-- All leaf hashes inserted by a sequence of batches. -/
def insertedHashes (batches : List (List NullifierTreeInput)) : List TreeHashType :=
  batches.flatten.map fun tn => tn.nullifier.utxo_hash

/-- The leaf set authenticated by the current root of a tree state. -/
def rootSet (st : NullifierSparseMerkleTree) : MtRoot :=
  st.curr_root.getD []

end Smt

namespace NssaSpec

/-! ## Account serialization and the encryption scheme (src/nssa/core/src/lib.rs)

Ciphertext::new, Ciphertext::decrypt and Ciphertext::kdf are in src; the
Account byte serialization they rely on lives in the missing account.rs and is
modelled from the specification, section 6: a length-prefixed, little-endian,
fixed-field binary layout with 4-byte little-endian lengths before
variable-length fields.  The external crates are abstracted by their
interfaces: the sha2 / risc0 SHA-256 used by the kdf becomes an arbitrary
function on byte lists, and the ChaCha20 stream cipher becomes an arbitrary
keystream determined by the 32-byte key (the nonce is the constant zero), with
apply_keystream the byte-wise xor of the buffer against that keystream. -/

/-- Splits a byte list into chunks of four, discarding a trailing partial
chunk. -/
def toBlocks4 : List Nat → List (List Nat)
  | b1 :: b2 :: b3 :: b4 :: rest => [b1, b2, b3, b4] :: toBlocks4 rest
  | _ => []

/-- Modelled from the spec: Account::to_bytes, the length-prefixed
little-endian fixed-field layout of section 6, fields in declaration order. -/
def Account.to_bytes (a : Account) : List Nat :=
  (a.program_owner.map (leBytes 4)).flatten ++ leBytes 16 a.balance ++
    leBytes 4 a.data.length ++ a.data ++ leBytes 16 a.nonce

/-- Reads exactly n bytes from a cursor, failing like Read::read_exact when
fewer remain. -/
def readN (n : Nat) (bs : List Nat) : Option (List Nat × List Nat) :=
  if n ≤ bs.length then some (bs.take n, bs.drop n) else none

/-- Modelled from the spec: Account::from_cursor, reading back the fields of
to_bytes in order and failing on a truncated input. -/
def Account.from_cursor (bs : List Nat) : Option Account :=
  match readN 32 bs with
  | none => none
  | some (ownerBytes, bs1) =>
    match readN 16 bs1 with
    | none => none
    | some (balBytes, bs2) =>
      match readN 4 bs2 with
      | none => none
      | some (lenBytes, bs3) =>
        match readN (leDecode lenBytes) bs3 with
        | none => none
        | some (data, bs4) =>
          match readN 16 bs4 with
          | none => none
          | some (nonceBytes, _) =>
            some { program_owner := (toBlocks4 ownerBytes).map leDecode,
                   balance := leDecode balBytes,
                   data := data,
                   nonce := leDecode nonceBytes }

/-- The range invariants the Rust integer types impose on an Account: u32
program id words, u128 balance and nonce, and a data vector whose length fits
the 4-byte length prefix of the wire format. -/
def Account.WF (a : Account) : Prop :=
  a.program_owner.length = 8 ∧ (∀ w ∈ a.program_owner, w < 2 ^ 32) ∧
    a.balance < 2 ^ 128 ∧ a.data.length < 2 ^ 32 ∧ a.nonce < 2 ^ 128

/-- The domain tag bytes of Ciphertext::kdf, the UTF-8 of NSSA/v0.1/KDF-SHA256. -/
def kdfDomain : List Nat :=
  [78, 83, 83, 65, 47, 118, 48, 46, 49, 47, 75, 68, 70, 45, 83, 72, 65, 50, 53, 54]

/-- Ciphertext::kdf: the SHA-256 (abstracted as hashBytes) of the domain tag,
the shared secret, the nullifier public key bytes, the commitment bytes and
the little-endian output index. -/
def Ciphertext.kdf (hashBytes : List Nat → List Nat) (ss npk c : List Nat)
    (output_index : Nat) : List Nat :=
  hashBytes (kdfDomain ++ ss ++ npk ++ c ++ leBytes 4 output_index)

/-- StreamCipher::apply_keystream starting at stream position i: byte-wise xor
of the buffer against the keystream f. -/
def applyKs (f : Nat → Nat) : Nat → List Nat → List Nat
  | _, [] => []
  | i, b :: bs => (b ^^^ f i) :: applyKs f (i + 1) bs

/-- Ciphertext::new: serialize the account and xor it against the ChaCha20
keystream (abstracted as ks) of the derived key. -/
def Ciphertext.new (hashBytes : List Nat → List Nat) (ks : List Nat → Nat → Nat)
    (account : Account) (shared_secret npk commitment : List Nat)
    (output_index : Nat) : List Nat :=
  applyKs (ks (Ciphertext.kdf hashBytes shared_secret npk commitment output_index)) 0
    account.to_bytes

/-- Ciphertext::decrypt: xor the buffer against the same keystream and parse
the result as an Account, returning none when parsing fails. -/
def Ciphertext.decrypt (hashBytes : List Nat → List Nat) (ks : List Nat → Nat → Nat)
    (ct : List Nat) (shared_secret npk commitment : List Nat)
    (output_index : Nat) : Option Account :=
  Account.from_cursor
    (applyKs (ks (Ciphertext.kdf hashBytes shared_secret npk commitment output_index)) 0 ct)

end NssaSpec

namespace Circuit

/-! ## The privacy preserving circuit
(src/nssa/program_methods/guest/src/bin/privacy_preserving_circuit.rs,
lines 94 to 221)

The guest binary drives the mask dispatch over the account list after a
chained-call prelude.  The cryptographic primitives it calls (Commitment::new,
Nullifier::for_account_update, Nullifier::for_account_initialization,
AccountId::from, NullifierPublicKey::from, compute_digest_for_path,
EncryptionScheme::encrypt and DUMMY_COMMITMENT_HASH) live in the newer
nssa-core whose sources are not under src; they are modelled from the
specification as an arbitrary bundle of pure functions, on which the
structural claims C6 and C9 do not depend.  A panic in the guest aborts the
proof without committing an output; panics are modelled as Except errors
carrying the panic message. -/

open NssaSpec

/-- MembershipProof = (usize, Vec of 32-byte hashes). -/
abbrev MembershipProof := Nat × List (List Nat)

/-- Modelled from the spec: the cryptographic primitives imported by the guest
from the missing newer nssa-core, bundled as an arbitrary pure interface. -/
structure Prims where
  accountIdOfNpk : List Nat → List Nat
  npkOfNsk : List Nat → List Nat
  commitmentOf : List Nat → Account → List Nat
  digestForPath : List Nat → MembershipProof → List Nat
  nullifierForUpdate : List Nat → List Nat → List Nat
  nullifierForInit : List Nat → List Nat
  dummyCommitmentHash : List Nat
  encryptAccount : Account → List Nat → List Nat → Nat → List Nat

/-- PrivacyPreservingCircuitOutput. -/
structure CircuitOutput where
  public_pre_states : List AccountWithMetadata
  public_post_states : List Account
  ciphertexts : List (List Nat)
  new_commitments : List (List Nat)
  new_nullifiers : List (List Nat × List Nat)
deriving DecidableEq

/-- The empty output accumulator the guest starts from. -/
def emptyOutput : CircuitOutput :=
  { public_pre_states := [], public_post_states := [], ciphertexts := [],
    new_commitments := [], new_nullifiers := [] }

/-- One iteration step of the account loop for the private masks 1 and 2:
the branch that draws an auth tuple and produces a (nullifier, digest) pair.
Returns the pair together with the remaining auth tuples. -/
def privateBranch (P : Prims) (m : Nat) (pre : AccountWithMetadata) (npk : List Nat)
    (auths : List (List Nat × MembershipProof)) :
    Except String ((List Nat × List Nat) × List (List Nat × MembershipProof)) :=
  if m = 1 then
    match auths with
    | [] => .error "Missing private auth"
    | (nsk, membership_proof) :: auths' =>
      if P.npkOfNsk nsk ≠ npk then .error "Nullifier public key mismatch"
      else
        let commitment_pre := P.commitmentOf npk pre.account
        let set_digest := P.digestForPath commitment_pre membership_proof
        if ¬ pre.is_authorized then .error "Pre-state not authorized"
        else .ok ((P.nullifierForUpdate commitment_pre nsk, set_digest), auths')
  else
    if pre.account ≠ Account.default then
      .error "Found new private account with non default values."
    else if pre.is_authorized then .error "Found new private account marked as authorized."
    else .ok ((P.nullifierForInit npk, P.dummyCommitmentHash), auths)

/-- The for-loop over account indices: mask, pre state and post state are
consumed in lockstep (the source indexes all three by i), the nonce, key and
auth iterators are threaded through, and the output lists grow at the back.
Returns the accumulated output and the unconsumed iterator remainders. -/
def processLoop (P : Prims) (program_id : ProgramId) :
    List Nat → List AccountWithMetadata → List Account →
    List Nat → List (List Nat × List Nat) → List (List Nat × MembershipProof) →
    Nat → CircuitOutput →
    Except String
      (CircuitOutput ×
        (List Nat × List (List Nat × List Nat) × List (List Nat × MembershipProof)))
  | [], _, _, nonces, keys, auths, _, acc => .ok (acc, nonces, keys, auths)
  | _ :: _, [], _, _, _, _, _, _ => .error "index out of bounds"
  | _ :: _, _ :: _, [], _, _, _, _, _ => .error "index out of bounds"
  | m :: ms, pre :: pres', post :: posts', nonces, keys, auths, output_index, acc =>
      if m = 0 then
        let post1 := if pre.is_authorized then { post with nonce := post.nonce + 1 } else post
        let post2 :=
          if post1.program_owner = DEFAULT_PROGRAM_ID then
            { post1 with program_owner := program_id }
          else post1
        processLoop P program_id ms pres' posts' nonces keys auths output_index
          { acc with public_pre_states := acc.public_pre_states ++ [pre],
                     public_post_states := acc.public_post_states ++ [post2] }
      else if m = 1 ∨ m = 2 then
        match nonces, keys with
        | [], _ => .error "Missing private nonce"
        | _ :: _, [] => .error "Missing keys"
        | new_nonce :: nonces', k :: keys' =>
          let npk := k.1
          let shared_secret := k.2
          if P.accountIdOfNpk npk ≠ pre.account_id then .error "AccountId mismatch"
          else
            match privateBranch P m pre npk auths with
            | .error e => .error e
            | .ok (nullifier_pair, auths') =>
              let post_upd := { post with nonce := new_nonce }
              let post_upd2 :=
                if post_upd.program_owner = DEFAULT_PROGRAM_ID then
                  { post_upd with program_owner := program_id }
                else post_upd
              let commitment_post := P.commitmentOf npk post_upd2
              let encrypted :=
                P.encryptAccount post_upd2 shared_secret commitment_post output_index
              processLoop P program_id ms pres' posts' nonces' keys' auths'
                (output_index + 1)
                { acc with
                    new_nullifiers := acc.new_nullifiers ++ [nullifier_pair],
                    new_commitments := acc.new_commitments ++ [commitment_post],
                    ciphertexts := acc.ciphertexts ++ [encrypted] }
      else .error "Invalid visibility mask value"

/-- The mask dispatch section of the guest main: the mask length check, the
account loop, and the trailing too-many checks on the three iterators. -/
def circuitMain (P : Prims) (pre_states : List AccountWithMetadata)
    (post_states : List Account) (visibility_mask : List Nat)
    (private_account_nonces : List Nat)
    (private_account_keys : List (List Nat × List Nat))
    (private_account_auth : List (List Nat × MembershipProof))
    (program_id : ProgramId) : Except String CircuitOutput :=
  if visibility_mask.length ≠ pre_states.length then .error "Invalid visibility mask length"
  else
    match processLoop P program_id visibility_mask pre_states post_states
        private_account_nonces private_account_keys private_account_auth 0 emptyOutput with
    | .error e => .error e
    | .ok (out, nonces', keys', auths') =>
      if nonces' ≠ [] then .error "Too many nonces."
      else if keys' ≠ [] then .error "Too many private account keys."
      else if auths' ≠ [] then .error "Too many private account authentication keys."
      else .ok out

/-- The number of nonces and key tuples the mask requires: one per entry with
value 1 or 2. -/
def requiredKeys (mask : List Nat) : Nat :=
  (mask.filter fun m => m = 1 ∨ m = 2).length

/-- The number of auth tuples the mask requires: one per entry with value 1. -/
def requiredAuths (mask : List Nat) : Nat :=
  (mask.filter fun m => m = 1).length

end Circuit

namespace MT

/-! ## The commitment Merkle tree (src/nssa/src/merkle_tree/mod.rs)

Values and nodes are 32-byte strings in the source; they are modelled as
opaque naturals, and the two SHA-256 based functions hash_value and hash_two
of the source are abstracted as an arbitrary pair of functions, over which
every theorem below is universally quantified.  The HashMap from values to
indices always binds the values inserted so far to the contiguous indices
0, 1, ... in insertion order (reallocation re-inserts in index order), so it
is represented by the ordered list of inserted values; the HashMap from node
indices to node hashes is an association list.  The per-level default values
table default_values.rs is not under src; consistently with the sibling
hashes appearing in the repository's own test vectors, level 0 defaults to
the all-zero leaf and level k+1 to hash_two of two level-k defaults. -/

/-- The pair of hash functions used by the tree (SHA-256 of one value, and
SHA-256 of the concatenation of two nodes, in the source). -/
structure HashFns where
  hashValue : Nat → Nat
  hashTwo : Nat → Nat → Nat

/-- Modelled from the spec: DEFAULT_VALUES from the missing default_values.rs,
determined by the repository test vectors: the level-0 default is the all-zero
node and each higher level hashes two copies of the level below. -/
def defaultValues (H : HashFns) : Nat → Nat
  | 0 => 0
  | k + 1 => H.hashTwo (defaultValues H k) (defaultValues H k)

/-- Floor base-2 logarithm with a structural fuel argument, so that concrete
trees evaluate inside the kernel. -/
def log2Aux : Nat → Nat → Nat
  | 0, _ => 0
  | fuel + 1, n => if n < 2 then 0 else log2Aux fuel (n / 2) + 1

/-- Floor base-2 logarithm (usize trailing_zeros on the powers of two it is
applied to). -/
def log2F (n : Nat) : Nat := log2Aux n n

/-- Ceiling base-2 logarithm with a structural fuel argument. -/
def clog2Aux : Nat → Nat → Nat
  | 0, _ => 0
  | fuel + 1, n => if n ≤ 1 then 0 else clog2Aux fuel ((n + 1) / 2) + 1

/-- Ceiling base-2 logarithm. -/
def clog2F (n : Nat) : Nat := clog2Aux n n

/-- next_power_of_two of usize (1 for inputs 0 and 1). -/
def np2 (n : Nat) : Nat := 2 ^ clog2F n

/-- HashMap lookup on an association list. -/
def assocGet (k : Nat) : List (Nat × α) → Option α
  | [] => none
  | (k', v) :: rest => if k = k' then some v else assocGet k rest

/-- HashMap insert on an association list: replace or append. -/
def assocSet (k : Nat) (v : α) : List (Nat × α) → List (Nat × α)
  | [] => [(k, v)]
  | (k', v') :: rest => if k = k' then (k, v) :: rest else (k', v') :: assocSet k v rest

/-- The MerkleTree state: the values inserted so far in index order (the
index_map), the node_map association list, and the power-of-two capacity. -/
structure MerkleTree where
  values : List Nat
  node_map : List (Nat × Nat)
  capacity : Nat
deriving DecidableEq

/-- trailing_zeros of the power-of-two capacity. -/
def capDepth (cap : Nat) : Nat := log2F cap

/-- depth(): trailing_zeros of next_power_of_two of the number of values. -/
def depthOf (len : Nat) : Nat := log2F (np2 len)

/-- get_node: a missing entry falls back to the per-level default value; the
source panics when the index lies below the leaf level, which is unreachable
from the public operations, and the model returns the zero node there. -/
def get_node (H : HashFns) (cap : Nat) (nm : List (Nat × Nat)) (idx : Nat) : Nat :=
  match assocGet idx nm with
  | some n => n
  | none =>
    let index_depth := log2F (idx + 1)
    let total_levels := capDepth cap
    if index_depth ≤ total_levels then defaultValues H (total_levels - index_depth)
    else 0

/-- The while loop of insert: climb k levels from layer_index, rewriting each
parent with the hash of its two children; odd heap indices are left
children. -/
def climb (H : HashFns) (cap : Nat) :
    Nat → List (Nat × Nat) → Nat → Nat → List (Nat × Nat)
  | 0, nm, _, _ => nm
  | k + 1, nm, layer_index, layer_node =>
    if layer_index % 2 = 1 then
      let sibling := get_node H cap nm (layer_index + 1)
      let parent_index := (layer_index - 1) / 2
      let parent_node := H.hashTwo layer_node sibling
      climb H cap k (assocSet parent_index parent_node nm) parent_index parent_node
    else
      let sibling := get_node H cap nm (layer_index - 1)
      let parent_index := (layer_index - 2) / 2
      let parent_node := H.hashTwo sibling layer_node
      climb H cap k (assocSet parent_index parent_node nm) parent_index parent_node

/-- MerkleTree::with_capacity. -/
def withCapacity (capacity : Nat) : MerkleTree :=
  { values := [], node_map := [], capacity := np2 capacity }

/-- The body of insert without the reallocation branch (the caller
guarantees capacity exceeds the current length). -/
def insertAux (H : HashFns) (t : MerkleTree) (v : Nat) : Bool × MerkleTree :=
  if t.values.contains v then (false, t)
  else
    let new_index := t.values.length
    let leaf_node := H.hashValue v
    let layer_index := new_index + t.capacity - 1
    let values' := t.values ++ [v]
    let top_layer := depthOf values'.length
    let nm :=
      climb H t.capacity top_layer (assocSet layer_index leaf_node t.node_map)
        layer_index leaf_node
    (true, { values := values', node_map := nm, capacity := t.capacity })

/-- reallocate_to_double_capacity: rebuild at doubled capacity, re-inserting
the values in index order.  The source calls the full insert here; the inner
tree is never at capacity during the rebuild, so the reallocation branch of
those calls is dead and insertAux is the exact behavior. -/
def realloc (H : HashFns) (t : MerkleTree) : MerkleTree :=
  t.values.foldl (fun acc v => (insertAux H acc v).2) (withCapacity (t.capacity * 2))

/-- MerkleTree::insert: duplicate check, reallocation when full, then the
insertion body. -/
def insert (H : HashFns) (t : MerkleTree) (v : Nat) : Bool × MerkleTree :=
  if t.values.contains v then (false, t)
  else if t.capacity = t.values.length then insertAux H (realloc H t) v
  else insertAux H t v

/-- The deduplication pass of MerkleTree::new, keeping first occurrences, with
the seen-set threaded explicitly. -/
def dedupGo : List Nat → List Nat → List Nat
  | [], _ => []
  | v :: rest, seen =>
    if v ∈ seen then dedupGo rest seen else v :: dedupGo rest (v :: seen)

/-- Duplicate removal keeping first occurrences. -/
def dedupKeepFirst (l : List Nat) : List Nat := dedupGo l []

/-- MerkleTree::new: deduplicate, allocate for the deduplicated length, insert
in order. -/
def MerkleTree.new (H : HashFns) (values : List Nat) : MerkleTree :=
  let dv := dedupKeepFirst values
  dv.foldl (fun acc v => (insert H acc v).2) (withCapacity dv.length)

/-- MerkleTree::root: the node at the root index of the effective subtree. -/
def MerkleTree.root (H : HashFns) (t : MerkleTree) : Nat :=
  let capacity_depth := capDepth t.capacity
  let diff := capacity_depth - depthOf t.values.length
  let root_index := if diff = 0 then 0 else 2 ^ diff - 1
  get_node H t.capacity t.node_map root_index

/-- Position of a value in the ordered value list, the index_map lookup. -/
def idxOf : Nat → List Nat → Option Nat
  | _, [] => none
  | v, x :: rest => if x = v then some 0 else (idxOf v rest).map (· + 1)

/-- The sibling-collecting loop of get_authentication_path_for. -/
def authPath (H : HashFns) (cap : Nat) (nm : List (Nat × Nat)) :
    Nat → Nat → List Nat
  | 0, _ => []
  | k + 1, layer_index =>
    if layer_index % 2 = 1 then
      get_node H cap nm (layer_index + 1) :: authPath H cap nm k ((layer_index - 1) / 2)
    else
      get_node H cap nm (layer_index - 1) :: authPath H cap nm k ((layer_index - 2) / 2)

/-- MerkleTree::get_authentication_path_for: the value's insertion index
paired with the sibling hashes from the leaf level up. -/
def get_authentication_path_for (H : HashFns) (t : MerkleTree) (v : Nat) :
    Option (Nat × List Nat) :=
  match idxOf v t.values with
  | none => none
  | some value_index =>
    some (value_index,
      authPath H t.capacity t.node_map (depthOf t.values.length)
        (t.capacity + value_index - 1))

/-- The root-recomputation fold shared by verify_authentication_path
(src/nssa/src/merkle_tree/mod.rs) and compute_root_associated_to_path
(src/nssa/core/src/lib.rs): the lowest index bit selects whether the running
hash is the left or the right child. -/
def verifyFold (H : HashFns) : Nat → Nat → List Nat → Nat
  | result, _, [] => result
  | result, level_index, node :: rest =>
    if level_index % 2 = 0 then verifyFold H (H.hashTwo result node) (level_index / 2) rest
    else verifyFold H (H.hashTwo node result) (level_index / 2) rest

/-- verify_authentication_path. -/
def verify_authentication_path (H : HashFns) (value : Nat) (index : Nat)
    (path : List Nat) (root : Nat) : Bool :=
  verifyFold H (H.hashValue value) index path == root

/-- compute_root_associated_to_path from src/nssa/core/src/lib.rs: the same
left/right fold, with the 64-byte concatenation hash of the source abstracted
by hashTwo and the leaf hash by hashValue. -/
def compute_root_associated_to_path (H : HashFns) (commitment : Nat)
    (proof : Nat × List Nat) : Nat :=
  verifyFold H (H.hashValue commitment) proof.1 proof.2

/-- The canonical node value of the subtree at level level and position p, for
a tree whose first leaves are the hashes of the given values and whose
remaining leaves are the zero default. -/
def canonNode (H : HashFns) (leaves : List Nat) : Nat → Nat → Nat
  | 0, p =>
    match leaves.get? p with
    | some v => H.hashValue v
    | none => 0
  | level + 1, p =>
    H.hashTwo (canonNode H leaves level (2 * p)) (canonNode H leaves level (2 * p + 1))

/-- The heap index of the node at level level and position p in a tree of the
given capacity: leaves sit at indices capacity - 1 + p. -/
def heapIdx (cap level p : Nat) : Nat := cap / 2 ^ level - 1 + p

/-- The structural invariant tying a tree state to its canonical node values:
a power-of-two capacity that bounds the length of the duplicate-free value
list, every node of the effective subtree agrees with its canonical value,
and no node of an untouched all-default subtree has a map entry. -/
def Inv (H : HashFns) (t : MerkleTree) : Prop :=
  t.capacity = 2 ^ capDepth t.capacity ∧
  t.values.length ≤ t.capacity ∧
  t.values.Nodup ∧
  (∀ level p, level ≤ depthOf t.values.length → p < t.capacity / 2 ^ level →
    get_node H t.capacity t.node_map (heapIdx t.capacity level p) =
      canonNode H t.values level p) ∧
  (∀ level p, level ≤ capDepth t.capacity → p < t.capacity / 2 ^ level →
    t.values.length ≤ p * 2 ^ level →
    assocGet (heapIdx t.capacity level p) t.node_map = none)

/-- A tree reachable from with_capacity by a sequence of inserts. -/
def buildTree (H : HashFns) (cap0 : Nat) (vs : List Nat) : MerkleTree :=
  vs.foldl (fun acc v => (insert H acc v).2) (withCapacity cap0)

end MT


namespace Sha512

/-! ## SHA-512 and HMAC-SHA512

The hmac_sha512 crate used by the key tree is external but fully specified
(FIPS 180-4 and RFC 2104); it is implemented here concretely so that the
known-answer key vectors of claim C8 can be checked.  Words are naturals kept
below 2 ^ 64, messages are byte lists. -/

/-- Reduction to a 64-bit word. -/
def w64 (n : Nat) : Nat := n % (2 ^ 64)

/-- Bitwise complement on 64-bit words. -/
def not64 (x : Nat) : Nat := 2 ^ 64 - 1 - x

/-- Right rotation of a 64-bit word. -/
def rotr (n x : Nat) : Nat := w64 ((x >>> n) ||| (x <<< (64 - n)))

/-- The choice function. -/
def ch (e f g : Nat) : Nat := (e &&& f) ^^^ (not64 e &&& g)

/-- The majority function. -/
def maj (a b c : Nat) : Nat := (a &&& b) ^^^ (a &&& c) ^^^ (b &&& c)

/-- The big sigma-0 mixing function. -/
def bs0 (x : Nat) : Nat := rotr 28 x ^^^ rotr 34 x ^^^ rotr 39 x

/-- The big sigma-1 mixing function. -/
def bs1 (x : Nat) : Nat := rotr 14 x ^^^ rotr 18 x ^^^ rotr 41 x

/-- The small sigma-0 schedule function. -/
def ss0 (x : Nat) : Nat := rotr 1 x ^^^ rotr 8 x ^^^ (x >>> 7)

/-- The small sigma-1 schedule function. -/
def ss1 (x : Nat) : Nat := rotr 19 x ^^^ rotr 61 x ^^^ (x >>> 6)

/-- The 80 round constants. -/
def K : List Nat :=
  [4794697086780616226, 8158064640168781261, 13096744586834688815,
   16840607885511220156, 4131703408338449720, 6480981068601479193,
   10538285296894168987, 12329834152419229976, 15566598209576043074,
   1334009975649890238, 2608012711638119052, 6128411473006802146,
   8268148722764581231, 9286055187155687089, 11230858885718282805,
   13951009754708518548, 16472876342353939154, 17275323862435702243,
   1135362057144423861, 2597628984639134821, 3308224258029322869,
   5365058923640841347, 6679025012923562964, 8573033837759648693,
   10970295158949994411, 12119686244451234320, 12683024718118986047,
   13788192230050041572, 14330467153632333762, 15395433587784984357,
   489312712824947311, 1452737877330783856, 2861767655752347644,
   3322285676063803686, 5560940570517711597, 5996557281743188959,
   7280758554555802590, 8532644243296465576, 9350256976987008742,
   10552545826968843579, 11727347734174303076, 12113106623233404929,
   14000437183269869457, 14369950271660146224, 15101387698204529176,
   15463397548674623760, 17586052441742319658, 1182934255886127544,
   1847814050463011016, 2177327727835720531, 2830643537854262169,
   3796741975233480872, 4115178125766777443, 5681478168544905931,
   6601373596472566643, 7507060721942968483, 8399075790359081724,
   8693463985226723168, 9568029438360202098, 10144078919501101548,
   10430055236837252648, 11840083180663258601, 13761210420658862357,
   14299343276471374635, 14566680578165727644, 15097957966210449927,
   16922976911328602910, 17689382322260857208, 500013540394364858,
   748580250866718886, 1242879168328830382, 1977374033974150939,
   2944078676154940804, 3659926193048069267, 4368137639120453308,
   4836135668995329356, 5532061633213252278, 6448918945643986474,
   6902733635092675308, 7801388544844847127]

/-- The initial hash state. -/
def H0 : List Nat :=
  [0x6a09e667f3bcc908, 0xbb67ae8584caa73b, 0x3c6ef372fe94f82b, 0xa54ff53a5f1d36f1, 0x510e527fade682d1, 0x9b05688c2b3e6c1f, 0x1f83d9abfb41bd6b, 0x5be0cd19137e2179]

/-- Extends the message schedule by the given number of words; the schedule is
kept in reverse order, the most recent word first. -/
def extendSchedule : Nat → List Nat → List Nat
  | 0, rws => rws
  | k + 1, rws =>
    let w2 := rws.getD 1 0
    let w7 := rws.getD 6 0
    let w15 := rws.getD 14 0
    let w16 := rws.getD 15 0
    let nw := w64 (ss1 w2 + w7 + ss0 w15 + w16)
    extendSchedule k (nw :: rws)

/-- The 80-word message schedule of one block. -/
def schedule (block : List Nat) : List Nat :=
  (extendSchedule 64 block.reverse).reverse

/-- One compression round on the eight-word working state. -/
def round (st : List Nat) (kw : Nat × Nat) : List Nat :=
  match st with
  | [a, b, c, d, e, f, g, h] =>
    let t1 := w64 (h + bs1 e + ch e f g + kw.1 + kw.2)
    let t2 := w64 (bs0 a + maj a b c)
    [w64 (t1 + t2), a, b, c, w64 (d + t1), e, f, g]
  | other => other

/-- The compression function on one 16-word block. -/
def compress (h : List Nat) (block : List Nat) : List Nat :=
  let st := ((K.zip (schedule block)).foldl round h)
  List.zipWith (fun x y => w64 (x + y)) h st

/-- Big-endian packing of bytes into 64-bit words, eight at a time. -/
def bytesToWords : List Nat → List Nat
  | b1 :: b2 :: b3 :: b4 :: b5 :: b6 :: b7 :: b8 :: rest =>
    NssaSpec.beDecode [b1, b2, b3, b4, b5, b6, b7, b8] :: bytesToWords rest
  | _ => []

/-- Splits a word list into 16-word blocks. -/
def toBlocks16 : List Nat → List (List Nat)
  | w1 :: w2 :: w3 :: w4 :: w5 :: w6 :: w7 :: w8 :: w9 :: w10 :: w11 :: w12 :: w13 :: w14
      :: w15 :: w16 :: rest =>
    [w1, w2, w3, w4, w5, w6, w7, w8, w9, w10, w11, w12, w13, w14, w15, w16]
      :: toBlocks16 rest
  | _ => []

/-- FIPS 180-4 padding: a 0x80 byte, zeros, and the 128-bit big-endian bit
length, to a multiple of 128 bytes. -/
def pad (msg : List Nat) : List Nat :=
  let z := (128 - (msg.length + 17) % 128) % 128
  msg ++ [0x80] ++ List.replicate z 0 ++ NssaSpec.beBytes 16 (8 * msg.length)

/-- SHA-512 of a byte list, as 64 bytes. -/
def sha512 (msg : List Nat) : List Nat :=
  let blocks := toBlocks16 (bytesToWords (pad msg))
  (blocks.foldl compress H0).flatMap (NssaSpec.beBytes 8)

/-- HMAC-SHA512 (RFC 2104): hmac_sha512::HMAC::mac(input, key) hashes the
input keyed by the second argument. -/
def hmacSha512 (key msg : List Nat) : List Nat :=
  let k0 :=
    if 128 < key.length then sha512 key ++ List.replicate 64 0
    else key ++ List.replicate (128 - key.length) 0
  let ipadKey := k0.map fun b => b ^^^ 0x36
  let opadKey := k0.map fun b => b ^^^ 0x5c
  sha512 (opadKey ++ sha512 (ipadKey ++ msg))

end Sha512

namespace Secp

/-- The order of the secp256k1 group, the modulus of the k256 Scalar field. -/
def order : Nat :=
  0xFFFFFFFFFFFFFFFFFFFFFFFFFFFFFFFEBAAEDCE6AF48A03BBFD25E8CD0364141

end Secp

namespace KeyTree

/-! ## The hierarchical key tree
(src/key_protocol/src/key_management/key_tree/keys_private.rs)

root and n_th_child of ChildKeysPrivate are in src.  The nsk / isk / ovk
derivations of SecretSpendingKey live in the missing secret_holders.rs and are
modelled from the specification, section 4.2, as fixed domain-separated
hashes of ssk; the public counterparts npk = f(nsk) and ipk = g(isk), also
missing, are modelled as an arbitrary pair of functions f and g exactly as
the specification names them.  The k256 Scalar arithmetic of n_th_child is
arithmetic modulo the secp256k1 order, with the 32-byte big-endian from_repr
and to_bytes conversions; from_repr fails on out-of-range input, which makes
n_th_child fallible. -/

/-- Scalar::from_repr on 32 big-endian bytes: defined only below the group
order. -/
def scalarFromRepr (bs : List Nat) : Option Nat :=
  let v := NssaSpec.beDecode bs
  if v < Secp.order then some v else none

/-- The UTF-8 bytes of NSSA_master_priv. -/
def masterDomain : List Nat :=
  [78, 83, 83, 65, 95, 109, 97, 115, 116, 101, 114, 95, 112, 114, 105, 118]

/-- The UTF-8 bytes of NSSA_seed_priv. -/
def seedDomain : List Nat :=
  [78, 83, 83, 65, 95, 115, 101, 101, 100, 95, 112, 114, 105, 118]

/-- Modelled from the spec: generate_nullifier_secret_key from the missing
secret_holders.rs, a fixed domain-separated hash of ssk. -/
def generate_nullifier_secret_key (ssk : List Nat) : List Nat :=
  (Sha512.sha512
    ([78, 83, 83, 65, 95, 110, 117, 108, 108, 105, 102, 105, 101, 114, 95, 112, 114,
      105, 118] ++ ssk)).take 32

/-- Modelled from the spec: generate_incoming_viewing_secret_key. -/
def generate_incoming_viewing_secret_key (ssk : List Nat) : List Nat :=
  (Sha512.sha512
    ([78, 83, 83, 65, 95, 105, 110, 99, 111, 109, 105, 110, 103, 95, 112, 114, 105,
      118] ++ ssk)).take 32

/-- Modelled from the spec: generate_outgoing_viewing_secret_key. -/
def generate_outgoing_viewing_secret_key (ssk : List Nat) : List Nat :=
  (Sha512.sha512
    ([78, 83, 83, 65, 95, 111, 117, 116, 103, 111, 105, 110, 103, 95, 112, 114, 105,
      118] ++ ssk)).take 32

/-- Modelled from the spec: the missing public-key derivations npk = f(nsk)
and ipk = g(isk), abstracted exactly as the specification names them. -/
structure PubDeriv where
  npkOfNsk : List Nat → List Nat
  ipkOfIsk : List Nat → List Nat

/-- ChildKeysPrivate. -/
structure ChildKeysPrivate where
  ssk : List Nat
  nsk : List Nat
  isk : List Nat
  ovk : List Nat
  npk : List Nat
  ipk : List Nat
  ccc : List Nat
  cci : Option Nat
  account : NssaSpec.Account
deriving DecidableEq

/-- KeyNode::root for ChildKeysPrivate: HMAC-SHA512 of the seed keyed by the
master domain tag, split into ssk and chain code, with the derived key
family. -/
def root (P : PubDeriv) (seed : List Nat) : ChildKeysPrivate :=
  let hash_value := Sha512.hmacSha512 masterDomain seed
  let ssk := hash_value.take 32
  let ccc := hash_value.drop 32
  let nsk := generate_nullifier_secret_key ssk
  let isk := generate_incoming_viewing_secret_key ssk
  let ovk := generate_outgoing_viewing_secret_key ssk
  { ssk := ssk, nsk := nsk, isk := isk, ovk := ovk,
    npk := P.npkOfNsk nsk, ipk := P.ipkOfIsk isk, ccc := ccc, cci := none,
    account := NssaSpec.Account.default }

/-- KeyNode::n_th_child: the combination scalar ovk + nsk * isk over the
secp256k1 scalar field, hashed with the child index under the parent chain
code; the Scalar::from_repr unwraps make the operation fallible. -/
def n_th_child (P : PubDeriv) (self : ChildKeysPrivate) (cci : Nat) :
    Option ChildKeysPrivate :=
  match scalarFromRepr self.ovk, scalarFromRepr self.nsk, scalarFromRepr self.isk with
  | some o, some n, some i =>
    let parent_pt := (o + n * i) % Secp.order
    let input := seedDomain ++ NssaSpec.beBytes 32 parent_pt ++ NssaSpec.leBytes 4 cci
    let hash_value := Sha512.hmacSha512 self.ccc input
    let ssk := hash_value.take 32
    let ccc := hash_value.drop 32
    let nsk := generate_nullifier_secret_key ssk
    let isk := generate_incoming_viewing_secret_key ssk
    let ovk := generate_outgoing_viewing_secret_key ssk
    some { ssk := ssk, nsk := nsk, isk := isk, ovk := ovk,
           npk := P.npkOfNsk nsk, ipk := P.ipkOfIsk isk, ccc := ccc, cci := some cci,
           account := NssaSpec.Account.default }
  | _, _, _ => none

/-- The seed of the known-answer test, [42; 64]. -/
def seed42 : List Nat := List.replicate 64 42

/-- The fixed root spending key of the known-answer test. -/
def rootSskVector : List Nat :=
  [249, 83, 253, 32, 174, 204, 185, 44, 253, 167, 61, 92, 128, 5, 152, 4, 220, 21, 88,
   84, 167, 180, 154, 249, 44, 77, 33, 136, 59, 131, 203, 152]

/-- The child-5 spending key determined by the model (fixed by determinism;
the byte values depend on the spec-modelled nsk / isk / ovk derivations). -/
def childSskVector : List Nat :=
  [166, 189, 1, 172, 51, 8, 81, 94, 6, 206, 200, 24, 82, 150, 209, 38, 72, 230, 130,
   197, 16, 36, 38, 217, 182, 27, 109, 196, 122, 37, 128, 136]

/-- The root chain code of the known-answer seed. -/
def rootCccVector : List Nat :=
  [192, 168, 226, 127, 181, 107, 181, 34, 117, 191, 255, 214, 43, 158, 118, 17, 86,
   179, 61, 213, 23, 101, 242, 124, 240, 208, 1, 254, 13, 236, 235, 84]

/-- The root nullifier secret key of the known-answer seed. -/
def rootNskVector : List Nat :=
  [52, 218, 97, 115, 10, 87, 191, 21, 24, 51, 66, 198, 36, 90, 84, 160, 198, 71,
   163, 205, 191, 179, 196, 219, 11, 160, 101, 54, 30, 159, 108, 116]

/-- The root incoming viewing secret key of the known-answer seed. -/
def rootIskVector : List Nat :=
  [188, 69, 6, 32, 126, 109, 205, 172, 204, 46, 7, 251, 33, 202, 70, 243, 212, 109,
   144, 202, 1, 205, 138, 132, 86, 161, 132, 208, 210, 89, 221, 83]

/-- The root outgoing viewing secret key of the known-answer seed. -/
def rootOvkVector : List Nat :=
  [225, 211, 174, 103, 36, 9, 130, 252, 133, 121, 118, 181, 4, 85, 0, 156, 93, 81,
   110, 31, 234, 24, 235, 8, 220, 35, 221, 46, 168, 58, 63, 13]

/-- The fully literal root node of the known-answer seed (with placeholder
public keys), used to evaluate the child derivation on closed data: the
child's ssk and cci do not depend on the parent's npk and ipk. -/
def litRoot0 : ChildKeysPrivate :=
  { ssk := rootSskVector, nsk := rootNskVector, isk := rootIskVector,
    ovk := rootOvkVector, npk := [], ipk := [], ccc := rootCccVector,
    cci := none, account := NssaSpec.Account.default }

/-- A placeholder public-key derivation, used to evaluate the child ssk and
cci (which do not depend on it) on closed data. -/
def pubDeriv0 : PubDeriv := { npkOfNsk := fun _ => [], ipkOfIsk := fun _ => [] }

end KeyTree

namespace DH

/-! ## Diffie-Hellman shared secrets
(src/key_protocol/src/key_management/ephemeral_key_holder.rs,
src/accounts/src/key_management/mod.rs,
src/nssa/src/privacy_preserving_transaction/message.rs)

The k256 crate is external; its interface contract is the secp256k1 group: an
additive commutative group with a generator whose order is Secp.order, and
Scalar the integers modulo that order.  The group is abstracted as such: every
theorem quantifies over an additive commutative group, a generator g with
order • g = 0, and an x-coordinate extraction function; point-scalar
multiplication is scalar-value nsmul, and the SEC1 point encoding is
identified with the point it encodes (the encoding is a bijection on valid
points). -/

/-- k256::Scalar. -/
abbrev Scalar := ZMod Secp.order

/-- EphemeralKeyHolder::generate_ephemeral_public_key: the generator times the
ephemeral secret key. -/
def generate_ephemeral_public_key {P : Type} [AddCommGroup P] (g : P) (esk : Scalar) : P :=
  esk.val • g

/-- EphemeralKeyHolder::calculate_shared_secret_sender: the scalar product of
the receiver key scalar and the ephemeral secret key. -/
def calculate_shared_secret_sender (esk ivk : Scalar) : Scalar :=
  ivk * esk

/-- AddressKeyHolder::calculate_shared_secret_receiver: the sender's ephemeral
public point times the viewing secret key. -/
def calculate_shared_secret_receiver {P : Type} [AddCommGroup P] (epk : P)
    (vsk : Scalar) : P :=
  vsk.val • epk

/-- Secp256k1Point::from_scalar: the compressed encoding of generator times
scalar, identified with the point itself. -/
def from_scalar {P : Type} [AddCommGroup P] (g : P) (s : Scalar) : P :=
  s.val • g

/-- EncryptedAccountData::compute_shared_secret: the x-coordinate of the
decoded point times the scalar. -/
def compute_shared_secret {P : Type} [AddCommGroup P] (xCoord : P → Nat)
    (scalar : Scalar) (point : P) : Nat :=
  xCoord (scalar.val • point)

end DH

namespace Circuit

/-- The number of mask-0 (public) accounts among the first i mask entries,
the position of account i inside the public output lists. -/
def countPub (mask : List Nat) (i : Nat) : Nat :=
  ((mask.take i).filter fun m => m = 0).length

end Circuit

/-! # Theorems -/

namespace NssaSpec

theorem validate_pair_iff (pre : AccountWithMetadata) (post : Account) (pid : ProgramId) :
    validate_pair pre post pid = true ↔ PairSpec pre post pid := by
  unfold validate_pair PairSpec
  split_ifs with h1 h2 h3 h4
  · rw [false_iff]
    intro hs
    exact h1 hs.1
  · rw [false_iff]
    intro hs
    exact h2.2 (hs.2.1 h2.1)
  · rw [false_iff]
    intro hs
    exact h3.2 (hs.2.2.1 h3.1)
  · rw [false_iff]
    intro hs
    rcases hs.2.2.2 h4.1 with ⟨hp, hq⟩
    rcases h4.2 with hc | hc
    · exact hc hp.symm
    · exact hc hq.symm
  · refine iff_of_true rfl ?_
    push_neg at h1 h2 h3 h4
    refine ⟨h1, fun ho => ?_, fun hb => ?_, fun hd => ?_⟩
    · by_contra hne
      exact hne (h2 ho)
    · by_contra hne
      exact hne (h3 hb)
    · rcases h4 hd with ⟨ha, hb'⟩
      exact ⟨ha.symm, hb'.symm⟩

theorem zip_all_iff {l1 : List AccountWithMetadata} {l2 : List Account} {pid : ProgramId} :
    ((l1.zip l2).all fun pq => validate_pair pq.1 pq.2 pid) = true ↔
      ∀ i, (h1 : i < l1.length) → (h2 : i < l2.length) →
        validate_pair (l1.get ⟨i, h1⟩) (l2.get ⟨i, h2⟩) pid = true := by
  rw [List.all_eq_true]
  constructor
  · intro hall i h1 h2
    have hi : i < (l1.zip l2).length := by
      rw [List.length_zip]
      exact lt_min h1 h2
    have := hall _ (List.get_mem (l1.zip l2) i hi)
    rwa [List.get_eq_getElem, List.getElem_zip] at this
  · intro hpt x hx
    rcases List.mem_iff_getElem.mp hx with ⟨i, hi, rfl⟩
    rw [List.getElem_zip]
    have h1 : i < l1.length := lt_of_lt_of_le hi (by rw [List.length_zip]; exact min_le_left _ _)
    have h2 : i < l2.length := lt_of_lt_of_le hi (by rw [List.length_zip]; exact min_le_right _ _)
    exact hpt i h1 h2

/-- C1: validate_execution returns true exactly when the two lists have equal
length, every index satisfies the nonce, ownership-change, balance-decrease
and data-mutation conditions, and the u128 sums of pre and post balances
agree; any single violation makes it return false for the whole batch. -/
theorem validate_execution_iff_spec (pre : List AccountWithMetadata)
    (post : List Account) (pid : ProgramId) :
    validate_execution pre post pid = true ↔ ValidateSpec pre post pid := by
  unfold validate_execution ValidateSpec
  split_ifs with h1 h2 h3
  · rw [false_iff]
    intro hs
    exact h1 hs.1
  · rw [false_iff]
    intro hs
    exact h3 hs.2.2
  · refine iff_of_true rfl ?_
    push_neg at h1 h3
    refine ⟨h1, fun i hi1 hi2 => ?_, h3⟩
    exact (validate_pair_iff _ _ _).mp (zip_all_iff.mp h2 i hi1 hi2)
  · rw [false_iff]
    intro hs
    refine h2 (zip_all_iff.mpr ?_)
    intro i hi1 hi2
    exact (validate_pair_iff _ _ _).mpr (hs.2.1 i hi1 hi2)

end NssaSpec

namespace Smt

open NssaSpec (isErr)

theorem mem_mtRootInsert {x k : TreeHashType} {s : MtRoot} :
    x ∈ mtRootInsert s k ↔ x = k ∨ x ∈ s := by
  unfold mtRootInsert
  split_ifs with h
  · constructor
    · exact fun hx => Or.inr hx
    · rintro (rfl | hx)
      · exact h
      · exact hx
  · simp [List.mem_cons]

theorem mem_foldl_mtRootInsert {x : TreeHashType} {keys : List TreeHashType} {s : MtRoot} :
    x ∈ keys.foldl mtRootInsert s ↔ x ∈ keys ∨ x ∈ s := by
  induction keys generalizing s with
  | nil => simp
  | cons k rest ih =>
    rw [List.foldl_cons, ih, mem_mtRootInsert]
    simp [List.mem_cons]
    tauto

theorem rootSet_insert_items (st : NullifierSparseMerkleTree)
    (tns : List NullifierTreeInput) :
    rootSet (insert_items st tns).2 =
      (tns.map fun tn => tn.nullifier.utxo_hash).foldl mtRootInsert (rootSet st) := by
  unfold insert_items insert_items_with mtInserts rootSet
  cases tns with
  | nil => rfl
  | cons t rest => rfl

theorem leafs_insert_items (st : NullifierSparseMerkleTree)
    (tns : List NullifierTreeInput) :
    (insert_items st tns).2.leafs = tns.foldl modify_leavs_with_nullifier_input st.leafs := by
  unfold insert_items insert_items_with mtInserts
  cases tns with
  | nil => rfl
  | cons t rest => rfl

theorem insertedHashes_cons (b : List NullifierTreeInput)
    (rest : List (List NullifierTreeInput)) :
    insertedHashes (b :: rest) =
      (b.map fun tn => tn.nullifier.utxo_hash) ++ insertedHashes rest := by
  unfold insertedHashes
  rw [List.flatten_cons, List.map_append]

theorem mem_rootSet_applyBatches_aux (bs : List (List NullifierTreeInput))
    (st : NullifierSparseMerkleTree) (x : TreeHashType) :
    x ∈ rootSet (bs.foldl (fun s b => (insert_items s b).2) st) ↔
      x ∈ insertedHashes bs ∨ x ∈ rootSet st := by
  induction bs generalizing st with
  | nil => simp [insertedHashes]
  | cons b rest ih =>
    rw [List.foldl_cons, ih, rootSet_insert_items, mem_foldl_mtRootInsert,
      insertedHashes_cons, List.mem_append]
    tauto

theorem mem_rootSet_applyBatches (bs : List (List NullifierTreeInput)) (x : TreeHashType) :
    x ∈ rootSet (applyBatches bs) ↔ x ∈ insertedHashes bs := by
  unfold applyBatches
  rw [mem_rootSet_applyBatches_aux]
  simp [rootSet, NullifierSparseMerkleTree.new]

theorem get_non_membership_proof_mem (st : NullifierSparseMerkleTree) (h : TreeHashType)
    (hmem : h ∈ rootSet st) :
    get_non_membership_proof st h = .error ⟨"Is a member"⟩ := by
  unfold rootSet at hmem
  unfold get_non_membership_proof search_item_inclusion mtGet
  cases hr : st.curr_root with
  | none =>
    rw [hr] at hmem
    simp at hmem
  | some r =>
    rw [hr] at hmem
    simp only [Option.getD_some] at hmem
    simp [Except.map, hmem]

theorem get_non_membership_proof_not_mem (st : NullifierSparseMerkleTree) (h : TreeHashType)
    (hmem : h ∉ rootSet st) :
    get_non_membership_proof st h =
      .ok ((match st.curr_root with
            | none => none
            | some r => some (r, h)), st.curr_root) := by
  unfold rootSet at hmem
  unfold get_non_membership_proof search_item_inclusion mtGet mtProof
  cases hr : st.curr_root with
  | none =>
    rw [hr] at hmem
    simp [Except.map]
  | some r =>
    rw [hr] at hmem
    simp only [Option.getD_some] at hmem
    simp [Except.map, hmem]

/-- C2: on every reachable tree state, get_non_membership_proof fails with the
Is-a-member logic error on a leaf that has previously been inserted, and on a
never-inserted leaf returns Ok with a proof (possibly none) paired with the
current root; in particular it fails on [1; 32] after inserting nullifier
[1; 32], and on a fresh tree it succeeds for [5; 32] with root none. -/
theorem non_membership_proof_spec :
    (∀ batches leaf, leaf ∈ insertedHashes batches →
      isErr (get_non_membership_proof (applyBatches batches) leaf) = true) ∧
    (∀ batches leaf, leaf ∉ insertedHashes batches →
      ∃ pf, get_non_membership_proof (applyBatches batches) leaf =
        .ok (pf, (applyBatches batches).curr_root)) ∧
    isErr
      (get_non_membership_proof
        (insert_item NullifierSparseMerkleTree.new
          ⟨1, 1, 1, ⟨List.replicate 32 1⟩⟩).2
        (List.replicate 32 1)) = true ∧
    get_non_membership_proof NullifierSparseMerkleTree.new (List.replicate 32 5) =
      .ok (none, none) := by
  refine ⟨?_, ?_, by decide, by rfl⟩
  · intro batches leaf hmem
    rw [get_non_membership_proof_mem _ _ ((mem_rootSet_applyBatches _ _).mpr hmem)]
    rfl
  · intro batches leaf hmem
    refine ⟨_, get_non_membership_proof_not_mem _ _ ?_⟩
    rw [mem_rootSet_applyBatches]
    exact hmem

/-- C2 witness: the general clauses of non_membership_proof_spec applied to a
concrete one-batch history. -/
theorem non_membership_proof_spec_witness :
    (isErr
      (get_non_membership_proof (applyBatches [[⟨1, 1, 1, ⟨List.replicate 32 1⟩⟩]])
        (List.replicate 32 1)) = true) ∧
    (∃ pf, get_non_membership_proof (applyBatches [[⟨1, 1, 1, ⟨List.replicate 32 1⟩⟩]])
        (List.replicate 32 7) =
      .ok (pf, (applyBatches [[⟨1, 1, 1, ⟨List.replicate 32 1⟩⟩]]).curr_root)) :=
  ⟨non_membership_proof_spec.1 [[⟨1, 1, 1, ⟨List.replicate 32 1⟩⟩]]
      (List.replicate 32 1) (by decide),
    non_membership_proof_spec.2.1 [[⟨1, 1, 1, ⟨List.replicate 32 1⟩⟩]]
      (List.replicate 32 7) (by decide)⟩

/-- C7: insert_items is atomic: whatever the backing monotree inserts call
does, an error return leaves curr_root and the leafs map unchanged, and an Ok
return applies the whole batch, making every batch hash a member of the new
root and folding every input into the leafs map. -/
theorem insert_items_atomic :
    (∀ ins st tns e, (insert_items_with ins st tns).1 = .error e →
      (insert_items_with ins st tns).2.curr_root = st.curr_root ∧
      (insert_items_with ins st tns).2.leafs = st.leafs) ∧
    (∀ st tns, (insert_items st tns).1 = .ok () →
      (∀ tn ∈ tns, tn.nullifier.utxo_hash ∈ rootSet (insert_items st tns).2) ∧
      (insert_items st tns).2.leafs =
        tns.foldl modify_leavs_with_nullifier_input st.leafs) := by
  constructor
  · intro ins st tns e herr
    unfold insert_items_with at herr ⊢
    dsimp only at herr ⊢
    cases hres : ins st.curr_root (tns.map fun tn => tn.nullifier.utxo_hash) with
    | error e' => exact ⟨rfl, rfl⟩
    | ok r =>
      rw [hres] at herr
      exact absurd herr (by simp)
  · intro st tns _
    refine ⟨fun tn htn => ?_, leafs_insert_items st tns⟩
    rw [rootSet_insert_items, mem_foldl_mtRootInsert]
    exact Or.inl (List.mem_map_of_mem _ htn)

/-- C7 witness: the error clause at a concrete always-failing inserts call and
the Ok clause at a concrete batch. -/
theorem insert_items_atomic_witness :
    ((insert_items_with (fun _ _ => .error ⟨"storage failure"⟩)
        NullifierSparseMerkleTree.new
        [⟨1, 1, 1, ⟨List.replicate 32 1⟩⟩]).2.curr_root =
      NullifierSparseMerkleTree.new.curr_root ∧
     (insert_items_with (fun _ _ => .error ⟨"storage failure"⟩)
        NullifierSparseMerkleTree.new
        [⟨1, 1, 1, ⟨List.replicate 32 1⟩⟩]).2.leafs =
      NullifierSparseMerkleTree.new.leafs) ∧
    (∀ tn ∈ [(⟨1, 1, 1, ⟨List.replicate 32 1⟩⟩ : NullifierTreeInput)],
      tn.nullifier.utxo_hash ∈
        rootSet (insert_items NullifierSparseMerkleTree.new
          [⟨1, 1, 1, ⟨List.replicate 32 1⟩⟩]).2) :=
  ⟨insert_items_atomic.1 (fun _ _ => .error ⟨"storage failure"⟩)
      NullifierSparseMerkleTree.new [⟨1, 1, 1, ⟨List.replicate 32 1⟩⟩]
      ⟨"storage failure"⟩ rfl,
    (insert_items_atomic.2 NullifierSparseMerkleTree.new
      [⟨1, 1, 1, ⟨List.replicate 32 1⟩⟩] rfl).1⟩

end Smt

namespace NssaSpec

theorem leDecode_cons (b : Nat) (bs : List Nat) :
    leDecode (b :: bs) = b + 256 * leDecode bs := rfl

theorem leDecode_leBytes {w n : Nat} (h : n < 256 ^ w) : leDecode (leBytes w n) = n := by
  induction w generalizing n with
  | zero =>
    interval_cases n
    rfl
  | succ w ih =>
    rw [leBytes, leDecode_cons, ih]
    · exact Nat.mod_add_div n 256
    · rw [Nat.div_lt_iff_lt_mul (by norm_num)]
      calc n < 256 ^ (w + 1) := h
        _ = 256 ^ w * 256 := by ring

theorem length_leBytes (w n : Nat) : (leBytes w n).length = w := by
  induction w generalizing n with
  | zero => rfl
  | succ w ih => rw [leBytes, List.length_cons, ih]

theorem applyKs_applyKs (f : Nat → Nat) (i : Nat) (bs : List Nat) :
    applyKs f i (applyKs f i bs) = bs := by
  induction bs generalizing i with
  | nil => rfl
  | cons b rest ih =>
    rw [applyKs, applyKs, Nat.xor_cancel_right, ih]

theorem readN_append (xs rest : List Nat) {n : Nat} (h : xs.length = n) :
    readN n (xs ++ rest) = some (xs, rest) := by
  unfold readN
  rw [if_pos, List.take_left' h, List.drop_left' h]
  rw [List.length_append, h]
  exact Nat.le_add_right n rest.length

theorem readN_exact (xs : List Nat) {n : Nat} (h : xs.length = n) :
    readN n xs = some (xs, []) := by
  unfold readN
  rw [if_pos (le_of_eq h.symm), ← h, List.take_length, List.drop_length]

theorem length_flatten_map_leBytes4 (l : List Nat) :
    ((l.map (leBytes 4)).flatten).length = 4 * l.length := by
  induction l with
  | nil => rfl
  | cons w rest ih =>
    rw [List.map_cons, List.flatten_cons, List.length_append, ih, length_leBytes,
      List.length_cons]
    ring

theorem toBlocks4_flatten_map (l : List Nat) :
    toBlocks4 ((l.map (leBytes 4)).flatten) = l.map (leBytes 4) := by
  induction l with
  | nil => rfl
  | cons w rest ih =>
    have h4 : leBytes 4 w =
        w % 256 :: (w / 256 % 256 :: (w / 256 / 256 % 256 :: (w / 256 / 256 / 256 % 256 :: []))) :=
      rfl
    rw [List.map_cons, List.flatten_cons, h4]
    show toBlocks4 (_ :: _ :: _ :: _ :: _) = _
    rw [toBlocks4]
    exact congrArg (List.cons _) ih

theorem from_cursor_to_bytes (a : Account) (hwf : a.WF) :
    Account.from_cursor a.to_bytes = some a := by
  obtain ⟨hlen, hbound, hbal, hdata, hnonce⟩ := hwf
  unfold Account.to_bytes Account.from_cursor
  have hol : ((a.program_owner.map (leBytes 4)).flatten).length = 32 := by
    rw [length_flatten_map_leBytes4, hlen]
  rw [List.append_assoc, List.append_assoc, List.append_assoc]
  rw [readN_append _ _ hol]
  dsimp only
  rw [readN_append _ _ (length_leBytes 16 a.balance)]
  dsimp only
  rw [readN_append _ _ (length_leBytes 4 a.data.length)]
  dsimp only
  rw [leDecode_leBytes (by calc a.data.length < 2 ^ 32 := hdata
        _ = 256 ^ 4 := by norm_num)]
  rw [readN_append _ _ rfl]
  dsimp only
  rw [readN_exact _ (length_leBytes 16 a.nonce)]
  dsimp only
  have howner : (toBlocks4 ((a.program_owner.map (leBytes 4)).flatten)).map leDecode =
      a.program_owner := by
    rw [toBlocks4_flatten_map, List.map_map]
    conv_rhs => rw [← List.map_id a.program_owner]
    refine List.map_congr_left fun w hw => ?_
    have : w < 256 ^ 4 := by
      calc w < 2 ^ 32 := hbound w hw
        _ = 256 ^ 4 := by norm_num
    simpa using leDecode_leBytes this
  rw [howner,
    leDecode_leBytes (by calc a.balance < 2 ^ 128 := hbal
      _ = 256 ^ 16 := by norm_num),
    leDecode_leBytes (by calc a.nonce < 2 ^ 128 := hnonce
      _ = 256 ^ 16 := by norm_num)]

/-- C3: decrypting Ciphertext::new(a, k, npk, c, i) with the same shared
secret, nullifier public key, commitment and output index returns some a, for
every account within the integer ranges of its Rust field types and every
choice of the abstracted SHA-256 and ChaCha20 primitives. -/
theorem decrypt_encrypt_roundtrip (hashBytes : List Nat → List Nat)
    (ks : List Nat → Nat → Nat) (a : Account) (ss npk c : List Nat) (idx : Nat)
    (hwf : a.WF) :
    Ciphertext.decrypt hashBytes ks (Ciphertext.new hashBytes ks a ss npk c idx)
      ss npk c idx = some a := by
  unfold Ciphertext.decrypt Ciphertext.new
  rw [applyKs_applyKs]
  exact from_cursor_to_bytes a hwf

/-- C3 witness: the round trip at a concrete account, hash and keystream. -/
theorem decrypt_encrypt_roundtrip_witness :
    (Account.WF ⟨[1, 2, 3, 4, 5, 6, 7, 8], 100, [9, 10, 11], 7⟩) ∧
    Ciphertext.decrypt (fun l => l) (fun key i => key.headD 0 + i)
      (Ciphertext.new (fun l => l) (fun key i => key.headD 0 + i)
        ⟨[1, 2, 3, 4, 5, 6, 7, 8], 100, [9, 10, 11], 7⟩
        [1, 1] [2, 2] [3, 3] 5)
      [1, 1] [2, 2] [3, 3] 5 =
      some ⟨[1, 2, 3, 4, 5, 6, 7, 8], 100, [9, 10, 11], 7⟩ :=
  ⟨by unfold Account.WF; decide,
    decrypt_encrypt_roundtrip (fun l => l) (fun key i => key.headD 0 + i)
      ⟨[1, 2, 3, 4, 5, 6, 7, 8], 100, [9, 10, 11], 7⟩ [1, 1] [2, 2] [3, 3] 5
      (by unfold Account.WF; decide)⟩

end NssaSpec

namespace MT

theorem mem_dedupGo {x : Nat} : ∀ {l seen : List Nat},
    x ∈ dedupGo l seen ↔ x ∈ l ∧ x ∉ seen := by
  intro l
  induction l with
  | nil => intro seen; simp [dedupGo]
  | cons v rest ih =>
    intro seen
    rw [dedupGo]
    by_cases hxv : x = v
    · subst hxv
      split_ifs with hv
      · rw [ih]
        simp [hv]
      · simp [List.mem_cons, ih, hv]
    · split_ifs with hv
      · rw [ih]
        simp [List.mem_cons, hxv]
      · simp [List.mem_cons, ih, hxv]

theorem dedupGo_nodup : ∀ (l seen : List Nat), (dedupGo l seen).Nodup := by
  intro l
  induction l with
  | nil => intro seen; simp [dedupGo]
  | cons v rest ih =>
    intro seen
    rw [dedupGo]
    split_ifs with hv
    · exact ih seen
    · refine List.nodup_cons.mpr ⟨fun hmem => ?_, ih (v :: seen)⟩
      exact (mem_dedupGo.mp hmem).2 (List.mem_cons_self v seen)

theorem dedupGo_of_nodup : ∀ (l seen : List Nat), l.Nodup → (∀ x ∈ l, x ∉ seen) →
    dedupGo l seen = l := by
  intro l
  induction l with
  | nil => intro seen _ _; rfl
  | cons v rest ih =>
    intro seen hnd hdis
    rw [dedupGo, if_neg (hdis v (List.mem_cons_self v rest))]
    rw [ih (v :: seen) (List.nodup_cons.mp hnd).2]
    intro x hx hmem
    rcases List.mem_cons.mp hmem with rfl | hseen
    · exact (List.nodup_cons.mp hnd).1 hx
    · exact hdis x (List.mem_cons_of_mem _ hx) hseen

theorem dedupKeepFirst_idem (l : List Nat) :
    dedupKeepFirst (dedupKeepFirst l) = dedupKeepFirst l := by
  unfold dedupKeepFirst
  exact dedupGo_of_nodup _ _ (dedupGo_nodup l []) (fun x _ hx => List.not_mem_nil x hx)

/-- C10: the merkle tree has set semantics: inserting a value already in the
tree returns false and leaves the whole tree state (root, index assignments,
capacity) unchanged, and building a tree from a list equals building it from
the list with duplicates removed keeping first occurrences. -/
theorem merkle_tree_set_semantics :
    (∀ (H : HashFns) (t : MerkleTree) (v : Nat), t.values.contains v →
      insert H t v = (false, t)) ∧
    (∀ (H : HashFns) (values : List Nat),
      MerkleTree.new H values = MerkleTree.new H (dedupKeepFirst values)) := by
  constructor
  · intro H t v hc
    unfold insert
    rw [if_pos hc]
  · intro H values
    unfold MerkleTree.new
    rw [dedupKeepFirst_idem]

/-- C10 witness: the no-op insert on a concrete tree already containing the
value, and the dedup equation at a concrete list. -/
theorem merkle_tree_set_semantics_witness :
    ((MerkleTree.new ⟨fun v => v + 1, fun a b => a + 2 * b⟩ [1, 2, 3]).values.contains 2 = true) ∧
    insert ⟨fun v => v + 1, fun a b => a + 2 * b⟩
        (MerkleTree.new ⟨fun v => v + 1, fun a b => a + 2 * b⟩ [1, 2, 3]) 2 =
      (false, MerkleTree.new ⟨fun v => v + 1, fun a b => a + 2 * b⟩ [1, 2, 3]) ∧
    MerkleTree.new ⟨fun v => v + 1, fun a b => a + 2 * b⟩ [1, 2, 2, 3, 1] =
      MerkleTree.new ⟨fun v => v + 1, fun a b => a + 2 * b⟩
        (dedupKeepFirst [1, 2, 2, 3, 1]) :=
  ⟨by decide,
    merkle_tree_set_semantics.1 ⟨fun v => v + 1, fun a b => a + 2 * b⟩
      (MerkleTree.new ⟨fun v => v + 1, fun a b => a + 2 * b⟩ [1, 2, 3]) 2 (by decide),
    merkle_tree_set_semantics.2 ⟨fun v => v + 1, fun a b => a + 2 * b⟩ [1, 2, 2, 3, 1]⟩

end MT

namespace Circuit

open NssaSpec (isErr Account AccountWithMetadata ProgramId DEFAULT_PROGRAM_ID)

theorem requiredKeys_cons (m : Nat) (ms : List Nat) :
    requiredKeys (m :: ms) = (if m = 1 ∨ m = 2 then 1 else 0) + requiredKeys ms := by
  unfold requiredKeys
  rw [List.filter_cons]
  split_ifs with h1 h2 h3
  · rw [List.length_cons]; omega
  · exact absurd (of_decide_eq_true h1) h2
  · exact absurd h3 (by simpa using h1)
  · omega

theorem requiredAuths_cons (m : Nat) (ms : List Nat) :
    requiredAuths (m :: ms) = (if m = 1 then 1 else 0) + requiredAuths ms := by
  unfold requiredAuths
  rw [List.filter_cons]
  split_ifs with h1 h2 h3
  · rw [List.length_cons]; omega
  · exact absurd (of_decide_eq_true h1) h2
  · exact absurd h3 (by simpa using h1)
  · omega

theorem countPub_cons_succ (m : Nat) (ms : List Nat) (i : Nat) :
    countPub (m :: ms) (i + 1) = (if m = 0 then 1 else 0) + countPub ms i := by
  unfold countPub
  rw [List.take_succ_cons, List.filter_cons]
  split_ifs with h1 h2 h3
  · rw [List.length_cons]; omega
  · exact absurd (of_decide_eq_true h1) h2
  · exact absurd h3 (by simpa using h1)
  · omega

theorem privateBranch_len {P : Prims} {m : Nat} {pre : AccountWithMetadata}
    {npk : List Nat} {auths auths' : List (List Nat × MembershipProof)}
    {pr : List Nat × List Nat}
    (h : privateBranch P m pre npk auths = .ok (pr, auths')) :
    auths.length = (if m = 1 then 1 else 0) + auths'.length := by
  unfold privateBranch at h
  by_cases hm1 : m = 1
  · rw [if_pos hm1] at h
    cases auths with
    | nil => simp at h
    | cons a rest =>
      obtain ⟨nsk, mp⟩ := a
      dsimp only at h
      rw [if_pos hm1]
      split_ifs at h with hk
      simp only [Except.ok.injEq, Prod.mk.injEq] at h
      rw [← h.2, List.length_cons]
      omega
  · rw [if_neg hm1] at h
    rw [if_neg hm1]
    split_ifs at h with hd hauth
    simp only [Except.ok.injEq, Prod.mk.injEq] at h
    rw [← h.2]
    omega

theorem processLoop_ok_counts (P : Prims) (pid : ProgramId) :
    ∀ (mask : List Nat) (pres : List AccountWithMetadata) (posts : List Account)
      (nonces : List Nat) (keys : List (List Nat × List Nat))
      (auths : List (List Nat × MembershipProof)) (oi : Nat) (acc out : CircuitOutput)
      (rem : List Nat × List (List Nat × List Nat) × List (List Nat × MembershipProof)),
      processLoop P pid mask pres posts nonces keys auths oi acc = .ok (out, rem) →
      (∀ m ∈ mask, m < 3) ∧
      nonces.length = requiredKeys mask + rem.1.length ∧
      keys.length = requiredKeys mask + rem.2.1.length ∧
      auths.length = requiredAuths mask + rem.2.2.length := by
  intro mask
  induction mask with
  | nil =>
    intro pres posts nonces keys auths oi acc out rem h
    rw [processLoop] at h
    simp only [Except.ok.injEq, Prod.mk.injEq] at h
    obtain ⟨-, hrem⟩ := h
    rw [← hrem]
    refine ⟨by simp, ?_, ?_, ?_⟩ <;> simp [requiredKeys, requiredAuths]
  | cons m ms ih =>
    intro pres posts nonces keys auths oi acc out rem h
    cases pres with
    | nil =>
      rw [processLoop.eq_def] at h
      dsimp only at h
      simp at h
    | cons pre pres' =>
      cases posts with
      | nil =>
        rw [processLoop.eq_def] at h
        dsimp only at h
        simp at h
      | cons post posts' =>
        rw [processLoop.eq_def] at h
        dsimp only at h
        by_cases hm0 : m = 0
        · rw [if_pos hm0] at h
          have := ih pres' posts' nonces keys auths oi _ out rem h
          refine ⟨fun m' hm' => ?_, ?_, ?_, ?_⟩
          · rcases List.mem_cons.mp hm' with rfl | hmem
            · omega
            · exact this.1 m' hmem
          · rw [requiredKeys_cons, if_neg (by omega)]
            simpa using this.2.1
          · rw [requiredKeys_cons, if_neg (by omega)]
            simpa using this.2.2.1
          · rw [requiredAuths_cons, if_neg (by omega)]
            simpa using this.2.2.2
        · by_cases hm12 : m = 1 ∨ m = 2
          · rw [if_neg hm0, if_pos hm12] at h
            cases nonces with
            | nil => simp at h
            | cons nn nonces' =>
              cases keys with
              | nil => simp at h
              | cons k keys' =>
                dsimp only at h
                by_cases hacc : P.accountIdOfNpk k.1 ≠ pre.account_id
                · rw [if_pos hacc] at h
                  simp at h
                · rw [if_neg hacc] at h
                  cases hpb : privateBranch P m pre k.1 auths with
                  | error e =>
                    rw [hpb] at h
                    simp at h
                  | ok pr =>
                    obtain ⟨pair, auths'⟩ := pr
                    rw [hpb] at h
                    dsimp only at h
                    have := ih pres' posts' nonces' keys' auths' (oi + 1) _ out rem h
                    have hlen := privateBranch_len hpb
                    refine ⟨fun m' hm' => ?_, ?_, ?_, ?_⟩
                    · rcases List.mem_cons.mp hm' with rfl | hmem
                      · omega
                      · exact this.1 m' hmem
                    · rw [requiredKeys_cons, if_pos hm12, List.length_cons]
                      omega
                    · rw [requiredKeys_cons, if_pos hm12, List.length_cons]
                      have := this.2.2.1
                      omega
                    · rw [requiredAuths_cons]
                      have := this.2.2.2
                      omega
          · rw [if_neg hm0, if_neg hm12] at h
            simp at h

/-- C6: the privacy circuit hard-rejects on every structural violation: a
visibility mask whose length differs from the account count, a mask entry
other than 0, 1 or 2, or a number of supplied nonces, key tuples or auth
tuples different from the counts the mask requires. -/
theorem circuit_structural_reject (P : Prims) (pre_states : List AccountWithMetadata)
    (post_states : List Account) (mask nonces : List Nat)
    (keys : List (List Nat × List Nat)) (auths : List (List Nat × MembershipProof))
    (pid : ProgramId)
    (hviol : mask.length ≠ pre_states.length ∨ (∃ m ∈ mask, 3 ≤ m) ∨
      nonces.length ≠ requiredKeys mask ∨ keys.length ≠ requiredKeys mask ∨
      auths.length ≠ requiredAuths mask) :
    isErr (circuitMain P pre_states post_states mask nonces keys auths pid) = true := by
  cases hres : circuitMain P pre_states post_states mask nonces keys auths pid with
  | error e => rfl
  | ok out =>
    exfalso
    unfold circuitMain at hres
    split_ifs at hres with hlen
    split at hres
    next e heq => simp at hres
    next out' nonces' keys' auths' heq =>
      split_ifs at hres with h1 h2 h3
      rw [not_ne_iff] at h1 h2 h3
      have hc := processLoop_ok_counts P pid mask pre_states post_states nonces keys
        auths 0 emptyOutput out' (nonces', keys', auths') heq
      rcases hviol with hv | hv | hv | hv | hv
      · exact hv (by omega)
      · obtain ⟨m, hmem, hm3⟩ := hv
        have := hc.1 m hmem
        omega
      · have := hc.2.1
        rw [h1, List.length_nil] at this
        omega
      · have := hc.2.2.1
        rw [h2, List.length_nil] at this
        omega
      · have := hc.2.2.2
        rw [h3, List.length_nil] at this
        omega

/-- C6 witness: the reject at a concrete unrecognized mask value. -/
theorem circuit_structural_reject_witness :
    (([5] : List Nat).length ≠ ([⟨Account.default, false, []⟩] :
        List AccountWithMetadata).length ∨
      (∃ m ∈ ([5] : List Nat), 3 ≤ m) ∨
      ([] : List Nat).length ≠ requiredKeys [5] ∨
      ([] : List (List Nat × List Nat)).length ≠ requiredKeys [5] ∨
      ([] : List (List Nat × MembershipProof)).length ≠ requiredAuths [5]) ∧
    isErr (circuitMain
      ⟨fun _ => [], fun _ => [], fun _ _ => [], fun _ _ => [], fun _ _ => [],
        fun _ => [], [], fun _ _ _ _ => []⟩
      [⟨Account.default, false, []⟩] [Account.default] [5] [] [] []
      DEFAULT_PROGRAM_ID) = true :=
  ⟨Or.inr (Or.inl (by decide)),
    circuit_structural_reject
      ⟨fun _ => [], fun _ => [], fun _ _ => [], fun _ _ => [], fun _ _ => [],
        fun _ => [], [], fun _ _ _ _ => []⟩
      [⟨Account.default, false, []⟩] [Account.default] [5] [] [] []
      DEFAULT_PROGRAM_ID (Or.inr (Or.inl (by decide)))⟩

end Circuit

namespace Circuit

open NssaSpec (isErr Account AccountWithMetadata ProgramId DEFAULT_PROGRAM_ID)

theorem processLoop_post_prefix (P : Prims) (pid : ProgramId) :
    ∀ (mask : List Nat) (pres : List AccountWithMetadata) (posts : List Account)
      (nonces : List Nat) (keys : List (List Nat × List Nat))
      (auths : List (List Nat × MembershipProof)) (oi : Nat) (acc out : CircuitOutput)
      (rem : List Nat × List (List Nat × List Nat) × List (List Nat × MembershipProof)),
      processLoop P pid mask pres posts nonces keys auths oi acc = .ok (out, rem) →
      ∃ ext, out.public_post_states = acc.public_post_states ++ ext := by
  intro mask
  induction mask with
  | nil =>
    intro pres posts nonces keys auths oi acc out rem h
    rw [processLoop] at h
    simp only [Except.ok.injEq, Prod.mk.injEq] at h
    exact ⟨[], by rw [← h.1, List.append_nil]⟩
  | cons m ms ih =>
    intro pres posts nonces keys auths oi acc out rem h
    cases pres with
    | nil =>
      rw [processLoop.eq_def] at h
      dsimp only at h
      simp at h
    | cons pre pres' =>
      cases posts with
      | nil =>
        rw [processLoop.eq_def] at h
        dsimp only at h
        simp at h
      | cons post posts' =>
        rw [processLoop.eq_def] at h
        dsimp only at h
        by_cases hm0 : m = 0
        · rw [if_pos hm0] at h
          obtain ⟨ext, hext⟩ := ih pres' posts' nonces keys auths oi _ out rem h
          dsimp only at hext
          exact ⟨_, by rw [hext, List.append_assoc]⟩
        · by_cases hm12 : m = 1 ∨ m = 2
          · rw [if_neg hm0, if_pos hm12] at h
            cases nonces with
            | nil => simp at h
            | cons nn nonces' =>
              cases keys with
              | nil => simp at h
              | cons k keys' =>
                dsimp only at h
                by_cases hacc : P.accountIdOfNpk k.1 ≠ pre.account_id
                · rw [if_pos hacc] at h
                  simp at h
                · rw [if_neg hacc] at h
                  cases hpb : privateBranch P m pre k.1 auths with
                  | error e =>
                    rw [hpb] at h
                    simp at h
                  | ok pr =>
                    obtain ⟨pair, auths'⟩ := pr
                    rw [hpb] at h
                    dsimp only at h
                    obtain ⟨ext, hext⟩ := ih pres' posts' nonces' keys' auths' (oi + 1) _
                      out rem h
                    exact ⟨ext, hext⟩
          · rw [if_neg hm0, if_neg hm12] at h
            simp at h

theorem processLoop_nonce (P : Prims) (pid : ProgramId) :
    ∀ (mask : List Nat) (pres : List AccountWithMetadata) (posts : List Account)
      (nonces : List Nat) (keys : List (List Nat × List Nat))
      (auths : List (List Nat × MembershipProof)) (oi : Nat) (acc out : CircuitOutput)
      (rem : List Nat × List (List Nat × List Nat) × List (List Nat × MembershipProof)),
      processLoop P pid mask pres posts nonces keys auths oi acc = .ok (out, rem) →
      ∀ i, (hi : i < mask.length) → mask.get ⟨i, hi⟩ = 0 →
      ∀ (hip : i < pres.length) (hio : i < posts.length),
      (out.public_post_states[acc.public_post_states.length + countPub mask i]?).map
          NssaSpec.Account.nonce =
        some (if (pres.get ⟨i, hip⟩).is_authorized then (posts.get ⟨i, hio⟩).nonce + 1
          else (posts.get ⟨i, hio⟩).nonce) := by
  intro mask
  induction mask with
  | nil =>
    intro pres posts nonces keys auths oi acc out rem h i hi
    exact absurd hi (by simp)
  | cons m ms ih =>
    intro pres posts nonces keys auths oi acc out rem h i hi hm hip hio
    cases pres with
    | nil => exact absurd hip (by simp)
    | cons pre pres' =>
      cases posts with
      | nil => exact absurd hio (by simp)
      | cons post posts' =>
        rw [processLoop.eq_def] at h
        dsimp only at h
        cases i with
        | zero =>
          have hm0 : m = 0 := hm
          rw [if_pos hm0] at h
          obtain ⟨ext, hext⟩ := processLoop_post_prefix P pid ms pres' posts' nonces keys
            auths oi _ out rem h
          dsimp only at hext
          have hc0 : countPub (m :: ms) 0 = 0 := rfl
          rw [hc0, Nat.add_zero, hext, List.append_assoc,
            List.getElem?_append_right (le_refl _), Nat.sub_self,
            List.singleton_append, List.getElem?_cons_zero]
          split_ifs <;> simp_all [List.get_cons_zero]
        | succ i' =>
          have hi' : i' < ms.length := by simpa using hi
          have hm' : ms.get ⟨i', hi'⟩ = 0 := hm
          have hip' : i' < pres'.length := by simpa using hip
          have hio' : i' < posts'.length := by simpa using hio
          by_cases hm0 : m = 0
          · rw [if_pos hm0] at h
            have hrec := ih pres' posts' nonces keys auths oi _ out rem h i' hi' hm'
              hip' hio'
            dsimp only at hrec
            rw [List.length_append, List.length_cons, List.length_nil] at hrec
            rw [countPub_cons_succ, if_pos hm0, ← Nat.add_assoc]
            exact hrec
          · by_cases hm12 : m = 1 ∨ m = 2
            · rw [if_neg hm0, if_pos hm12] at h
              cases nonces with
              | nil => simp at h
              | cons nn nonces' =>
                cases keys with
                | nil => simp at h
                | cons k keys' =>
                  dsimp only at h
                  by_cases hacc : P.accountIdOfNpk k.1 ≠ pre.account_id
                  · rw [if_pos hacc] at h
                    simp at h
                  · rw [if_neg hacc] at h
                    cases hpb : privateBranch P m pre k.1 auths with
                    | error e =>
                      rw [hpb] at h
                      simp at h
                    | ok pr =>
                      obtain ⟨pair, auths'⟩ := pr
                      rw [hpb] at h
                      dsimp only at h
                      have hrec := ih pres' posts' nonces' keys' auths' (oi + 1) _ out
                        rem h i' hi' hm' hip' hio'
                      rw [countPub_cons_succ, if_neg hm0, Nat.zero_add]
                      exact hrec
            · rw [if_neg hm0, if_neg hm12] at h
              simp at h

/-- C9: whenever the circuit succeeds, every account with visibility mask 0
contributes a public post state whose nonce is the program post-state nonce
plus exactly one when the pre state is authorized, and the unchanged
post-state nonce otherwise. -/
theorem circuit_mask0_nonce_bump (P : Prims) (pre_states : List AccountWithMetadata)
    (post_states : List Account) (mask nonces : List Nat)
    (keys : List (List Nat × List Nat)) (auths : List (List Nat × MembershipProof))
    (pid : ProgramId) (out : CircuitOutput)
    (hres : circuitMain P pre_states post_states mask nonces keys auths pid = .ok out) :
    ∀ i, (hi : i < mask.length) → mask.get ⟨i, hi⟩ = 0 →
    ∀ (hip : i < pre_states.length) (hio : i < post_states.length),
    (out.public_post_states[countPub mask i]?).map NssaSpec.Account.nonce =
      some (if (pre_states.get ⟨i, hip⟩).is_authorized
        then (post_states.get ⟨i, hio⟩).nonce + 1
        else (post_states.get ⟨i, hio⟩).nonce) := by
  intro i hi hm hip hio
  unfold circuitMain at hres
  split_ifs at hres with hlen
  split at hres
  next e heq => simp at hres
  next out' nonces' keys' auths' heq =>
    split_ifs at hres with h1 h2 h3
    simp only [Except.ok.injEq] at hres
    subst hres
    have := processLoop_nonce P pid mask pre_states post_states nonces keys auths 0
      emptyOutput out' (nonces', keys', auths') heq i hi hm hip hio
    simpa [emptyOutput] using this

end Circuit

namespace Circuit

open NssaSpec (Account AccountWithMetadata)

/-- C9 witness: a concrete successful run with one authorized mask-0 account,
whose emitted public nonce is the post-state nonce plus one. -/
theorem circuit_mask0_nonce_bump_witness :
    circuitMain
        ⟨fun _ => [], fun _ => [], fun _ _ => [], fun _ _ => [], fun _ _ => [],
          fun _ => [], [], fun _ _ _ _ => []⟩
        [⟨⟨List.replicate 8 0, 0, [], 5⟩, true, []⟩]
        [⟨List.replicate 8 0, 0, [], 9⟩] [0] [] [] [] (List.replicate 8 1) =
      .ok ⟨[⟨⟨List.replicate 8 0, 0, [], 5⟩, true, []⟩],
        [⟨List.replicate 8 1, 0, [], 10⟩], [], [], []⟩ ∧
    (((⟨[⟨⟨List.replicate 8 0, 0, [], 5⟩, true, []⟩],
        [⟨List.replicate 8 1, 0, [], 10⟩], [], [], []⟩ :
          CircuitOutput).public_post_states[countPub [0] 0]?).map Account.nonce =
      some 10) :=
  ⟨by rfl,
    circuit_mask0_nonce_bump
      ⟨fun _ => [], fun _ => [], fun _ _ => [], fun _ _ => [], fun _ _ => [],
        fun _ => [], [], fun _ _ _ _ => []⟩
      [⟨⟨List.replicate 8 0, 0, [], 5⟩, true, []⟩]
      [⟨List.replicate 8 0, 0, [], 9⟩] [0] [] [] [] (List.replicate 8 1)
      ⟨[⟨⟨List.replicate 8 0, 0, [], 5⟩, true, []⟩],
        [⟨List.replicate 8 1, 0, [], 10⟩], [], [], []⟩
      (by rfl) 0 (by decide) (by decide) (by decide) (by decide)⟩

end Circuit

namespace KeyTree

theorem n_th_child_congr (P : PubDeriv) (s1 s2 : ChildKeysPrivate) (c : Nat)
    (h1 : s1.ovk = s2.ovk) (h2 : s1.nsk = s2.nsk) (h3 : s1.isk = s2.isk)
    (h4 : s1.ccc = s2.ccc) : n_th_child P s1 c = n_th_child P s2 c := by
  unfold n_th_child
  rw [h1, h2, h3, h4]

theorem n_th_child_indep (P Q : PubDeriv) (s : ChildKeysPrivate) (c : Nat) :
    ((n_th_child P s c).map ChildKeysPrivate.ssk =
        (n_th_child Q s c).map ChildKeysPrivate.ssk) ∧
    ((n_th_child P s c).map ChildKeysPrivate.cci =
        (n_th_child Q s c).map ChildKeysPrivate.cci) := by
  unfold n_th_child
  rcases scalarFromRepr s.ovk with _ | o <;>
    rcases scalarFromRepr s.nsk with _ | n <;>
      rcases scalarFromRepr s.isk with _ | i <;>
        exact ⟨rfl, rfl⟩

set_option maxHeartbeats 4000000 in
/-- C8: key derivation is deterministic; the root of seed [42; 64] has the
fixed 32-byte spending key of the known-answer test and no child index, and
its fifth child has a different, fixed 32-byte spending key with child
index 5.  The child bytes are the fixed values determined by the
spec-modelled nsk, isk and ovk derivations. -/
theorem key_tree_known_answer :
    (∀ (P : PubDeriv) (seed : List Nat), root P seed = root P seed) ∧
    ∀ P : PubDeriv,
      (root P seed42).ssk = rootSskVector ∧ (root P seed42).cci = none ∧
      (n_th_child P (root P seed42) 5).map ChildKeysPrivate.ssk =
        some childSskVector ∧
      (n_th_child P (root P seed42) 5).map ChildKeysPrivate.cci =
        some (some 5) ∧
      childSskVector ≠ rootSskVector := by
  refine ⟨fun P seed => rfl, fun P => ?_⟩
  have hssk : (root P seed42).ssk = rootSskVector := rfl
  have hccc : (root P seed42).ccc = rootCccVector := rfl
  have hnsk : (root P seed42).nsk = rootNskVector := rfl
  have hisk : (root P seed42).isk = rootIskVector := rfl
  have hovk : (root P seed42).ovk = rootOvkVector := rfl
  have hcong := n_th_child_congr P (root P seed42) litRoot0 5
    (hovk.trans rfl) (hnsk.trans rfl) (hisk.trans rfl) (hccc.trans rfl)
  have hP := n_th_child_indep P pubDeriv0 litRoot0 5
  refine ⟨hssk, rfl, ?_, ?_, by decide⟩
  · rw [hcong, hP.1]
    rfl
  · rw [hcong, hP.2]
    rfl

end KeyTree

namespace DH

/-- C5: the sender's and the receiver's shared secrets agree, as in standard
Diffie-Hellman: over any model of the secp256k1 group (an additive
commutative group with a generator g killed by the group order), the
x-coordinate shared secret computed from the receiver's incoming viewing
public key and the ephemeral secret key equals the one computed from the
sender's ephemeral public key and the viewing secret key; moreover the
sender's scalar shared secret ivk * esk denotes exactly the receiver's
point vsk-times-epk. -/
theorem shared_secret_agreement {P : Type} [AddCommGroup P] (g : P)
    (hG : Secp.order • g = 0) (xCoord : P → Nat) (esk ivk : Scalar) :
    compute_shared_secret xCoord esk (from_scalar g ivk) =
      compute_shared_secret xCoord ivk (from_scalar g esk) ∧
    from_scalar g (calculate_shared_secret_sender esk ivk) =
      calculate_shared_secret_receiver (generate_ephemeral_public_key g esk) ivk := by
  haveI : NeZero Secp.order := ⟨by decide⟩
  have hmod : ∀ k : Nat, (k % Secp.order) • g = k • g := by
    intro k
    conv_rhs => rw [← Nat.div_add_mod k Secp.order]
    rw [add_nsmul, mul_nsmul, hG, smul_zero, zero_add]
  constructor
  · unfold compute_shared_secret from_scalar
    rw [smul_smul, smul_smul, Nat.mul_comm]
  · unfold from_scalar calculate_shared_secret_sender
      calculate_shared_secret_receiver generate_ephemeral_public_key
    rw [ZMod.val_mul, hmod, mul_nsmul, smul_smul, smul_smul, Nat.mul_comm]

end DH

namespace DH

/-- A concrete instantiation of the shared-secret agreement: the group
ZMod Secp.order with generator 1 (killed by the order since the order casts
to zero), x-coordinate ZMod.val, esk = 2 and ivk = 3. -/
theorem shared_secret_agreement_witness :
    Secp.order • (1 : ZMod Secp.order) = 0 ∧
    (compute_shared_secret ZMod.val (2 : Scalar) (from_scalar (1 : ZMod Secp.order) 3) =
        compute_shared_secret ZMod.val 3 (from_scalar (1 : ZMod Secp.order) 2) ∧
      from_scalar (1 : ZMod Secp.order) (calculate_shared_secret_sender 2 3) =
        calculate_shared_secret_receiver
          (generate_ephemeral_public_key (1 : ZMod Secp.order) 2) 3) :=
  have hG : Secp.order • (1 : ZMod Secp.order) = 0 := by
    rw [nsmul_eq_mul, mul_one, ZMod.natCast_self]
  ⟨hG, shared_secret_agreement (1 : ZMod Secp.order) hG ZMod.val 2 3⟩

end DH

namespace MT

theorem log2Aux_eq : ∀ fuel n, n ≤ fuel → log2Aux fuel n = Nat.log 2 n := by
  intro fuel
  induction fuel with
  | zero =>
    intro n hn
    interval_cases n
    simp [log2Aux, Nat.log_zero_right]
  | succ f ih =>
    intro n hn
    rw [log2Aux]
    by_cases h2 : n < 2
    · rw [if_pos h2]
      interval_cases n <;> simp [Nat.log_zero_right, Nat.log_one_right]
    · rw [if_neg h2, Nat.log_of_one_lt_of_le (by norm_num) (by omega)]
      rw [ih (n / 2) (by omega)]

theorem log2F_eq (n : Nat) : log2F n = Nat.log 2 n := log2Aux_eq n n le_rfl

theorem log2F_pow (k : Nat) : log2F (2 ^ k) = k := by
  rw [log2F_eq, Nat.log_pow (by norm_num)]

theorem log2F_range {m x : Nat} (h1 : 2 ^ m ≤ x) (h2 : x < 2 ^ (m + 1)) :
    log2F x = m := by
  rw [log2F_eq, Nat.log_eq_of_pow_le_of_lt_pow h1 h2]

theorem clog2Aux_eq : ∀ fuel n, n ≤ fuel → clog2Aux fuel n = Nat.clog 2 n := by
  intro fuel
  induction fuel with
  | zero =>
    intro n hn
    interval_cases n
    simp [clog2Aux, Nat.clog_zero_right]
  | succ f ih =>
    intro n hn
    rw [clog2Aux]
    by_cases h2 : n ≤ 1
    · rw [if_pos h2, Nat.clog_of_right_le_one h2]
    · rw [if_neg h2, Nat.clog_of_two_le (by norm_num) (by omega)]
      have he : n + 2 - 1 = n + 1 := by omega
      rw [he, ih ((n + 1) / 2) (by omega)]

theorem clog2F_eq (n : Nat) : clog2F n = Nat.clog 2 n := clog2Aux_eq n n le_rfl

theorem np2_eq (n : Nat) : np2 n = 2 ^ Nat.clog 2 n := by
  rw [np2, clog2F_eq]

theorem np2_pow (k : Nat) : np2 (2 ^ k) = 2 ^ k := by
  rw [np2_eq, Nat.clog_pow _ _ (by norm_num)]

theorem le_np2 (n : Nat) : n ≤ np2 n := by
  rw [np2_eq]
  exact Nat.le_pow_clog (by norm_num) n

theorem depthOf_eq (len : Nat) : depthOf len = Nat.clog 2 len := by
  rw [depthOf, np2_eq, log2F_pow]

theorem le_pow_depthOf (len : Nat) : len ≤ 2 ^ depthOf len := by
  rw [depthOf_eq]
  exact Nat.le_pow_clog (by norm_num) len

theorem depthOf_le {len d : Nat} (h : len ≤ 2 ^ d) : depthOf len ≤ d := by
  rw [depthOf_eq]
  exact (Nat.le_pow_iff_clog_le (by norm_num)).mp h

theorem depthOf_succ_le (n : Nat) : depthOf (n + 1) ≤ depthOf n + 1 := by
  rw [depthOf_eq, depthOf_eq]
  refine (Nat.le_pow_iff_clog_le (by norm_num)).mp ?_
  have h := Nat.le_pow_clog (b := 2) (by norm_num) n
  have h1 : 1 ≤ 2 ^ Nat.clog 2 n := Nat.one_le_two_pow
  calc n + 1 ≤ 2 ^ Nat.clog 2 n + 2 ^ Nat.clog 2 n := by omega
    _ = 2 ^ (Nat.clog 2 n + 1) := by rw [Nat.pow_succ]; omega

theorem capDepth_pow (k : Nat) : capDepth (2 ^ k) = k := log2F_pow k

end MT

namespace MT

theorem heapIdx_pow {d l : Nat} (hl : l ≤ d) (p : Nat) :
    heapIdx (2 ^ d) l p = 2 ^ (d - l) - 1 + p := by
  rw [heapIdx, Nat.pow_div hl (by norm_num)]

theorem heapIdx_inj {d l p l' p' : Nat} (hl : l ≤ d) (hl' : l' ≤ d)
    (hp : p < 2 ^ (d - l)) (hp' : p' < 2 ^ (d - l'))
    (h : heapIdx (2 ^ d) l p = heapIdx (2 ^ d) l' p') : l = l' ∧ p = p' := by
  rw [heapIdx_pow hl, heapIdx_pow hl'] at h
  have h1 : (1 : Nat) ≤ 2 ^ (d - l) := Nat.one_le_two_pow
  have h1' : (1 : Nat) ≤ 2 ^ (d - l') := Nat.one_le_two_pow
  have hll' : d - l = d - l' := by
    rcases Nat.lt_trichotomy (d - l) (d - l') with hlt | heq | hgt
    · exfalso
      have : 2 ^ (d - l + 1) ≤ 2 ^ (d - l') := Nat.pow_le_pow_right (by norm_num) hlt
      rw [Nat.pow_succ] at this
      omega
    · exact heq
    · exfalso
      have : 2 ^ (d - l' + 1) ≤ 2 ^ (d - l) := Nat.pow_le_pow_right (by norm_num) hgt
      rw [Nat.pow_succ] at this
      omega
  constructor
  · omega
  · rw [hll'] at h h1
    omega

theorem assocGet_set_eq (k : Nat) (v : α) : ∀ m : List (Nat × α),
    assocGet k (assocSet k v m) = some v := by
  intro m
  induction m with
  | nil => simp [assocGet, assocSet]
  | cons kv rest ih =>
    obtain ⟨k', v'⟩ := kv
    rw [assocSet]
    by_cases hk : k = k'
    · rw [if_pos hk, assocGet, if_pos rfl]
    · rw [if_neg hk, assocGet, if_neg hk]
      exact ih

theorem assocGet_set_ne {k k' : Nat} (hne : k ≠ k') (v : α) : ∀ m : List (Nat × α),
    assocGet k (assocSet k' v m) = assocGet k m := by
  intro m
  induction m with
  | nil => simp [assocGet, assocSet, hne]
  | cons kv rest ih =>
    obtain ⟨k'', v''⟩ := kv
    rw [assocSet]
    by_cases hk : k' = k''
    · subst hk
      rw [if_pos rfl, assocGet, assocGet, if_neg hne, if_neg hne]
    · rw [if_neg hk, assocGet, assocGet]
      by_cases hkk : k = k''
      · rw [if_pos hkk, if_pos hkk]
      · rw [if_neg hkk, if_neg hkk]
        exact ih

theorem get_node_congr {H : HashFns} {cap : Nat} {m m' : List (Nat × Nat)} {i : Nat}
    (h : assocGet i m = assocGet i m') :
    get_node H cap m i = get_node H cap m' i := by
  rw [get_node, get_node, h]

theorem get_node_some {H : HashFns} {cap : Nat} {m : List (Nat × Nat)} {i x : Nat}
    (h : assocGet i m = some x) : get_node H cap m i = x := by
  rw [get_node, h]

theorem get_node_none {H : HashFns} {d l p : Nat} {m : List (Nat × Nat)}
    (hl : l ≤ d) (hp : p < 2 ^ (d - l))
    (h : assocGet (heapIdx (2 ^ d) l p) m = none) :
    get_node H (2 ^ d) m (heapIdx (2 ^ d) l p) = defaultValues H l := by
  rw [get_node, h]
  have hidx : heapIdx (2 ^ d) l p + 1 = 2 ^ (d - l) + p := by
    have := heapIdx_pow (d := d) hl p
    have h1 : (1 : Nat) ≤ 2 ^ (d - l) := Nat.one_le_two_pow
    omega
  have hlog : log2F (heapIdx (2 ^ d) l p + 1) = d - l := by
    rw [hidx]
    refine log2F_range (by omega) ?_
    rw [Nat.pow_succ]
    have h1 : (1 : Nat) ≤ 2 ^ (d - l) := Nat.one_le_two_pow
    omega
  rw [hlog, capDepth_pow]
  rw [if_pos (by omega)]
  have : d - (d - l) = l := by omega
  rw [this]

theorem canonNode_default (H : HashFns) (leaves : List Nat) :
    ∀ (l p : Nat), leaves.length ≤ p * 2 ^ l →
      canonNode H leaves l p = defaultValues H l := by
  intro l
  induction l with
  | zero =>
    intro p hp
    rw [canonNode, List.get?_eq_none.mpr (by omega), defaultValues]
  | succ k ih =>
    intro p hp
    rw [canonNode, defaultValues]
    rw [Nat.pow_succ] at hp
    have h2p : leaves.length ≤ 2 * p * 2 ^ k := by
      rw [show 2 * p * 2 ^ k = p * (2 ^ k * 2) from by ring]
      exact hp
    have h2p1 : leaves.length ≤ (2 * p + 1) * 2 ^ k :=
      le_trans h2p (mul_le_mul_right' (by omega) _)
    rw [ih (2 * p) h2p, ih (2 * p + 1) h2p1]

theorem canonNode_append_out (H : HashFns) (leaves : List Nat) (v : Nat) :
    ∀ (l p : Nat), (∀ i, p * 2 ^ l ≤ i → i < (p + 1) * 2 ^ l → i ≠ leaves.length) →
      canonNode H (leaves ++ [v]) l p = canonNode H leaves l p := by
  intro l
  induction l with
  | zero =>
    intro p hp
    have hpn : p ≠ leaves.length := hp p (by omega) (by omega)
    rw [canonNode, canonNode]
    rcases Nat.lt_or_ge p leaves.length with hlt | hge
    · rw [List.get?_append hlt]
    · have h1 : (leaves ++ [v]).get? p = none := by
        refine List.get?_eq_none.mpr ?_
        simp only [List.length_append, List.length_cons, List.length_nil]
        omega
      have h2 : leaves.get? p = none := List.get?_eq_none.mpr (by omega)
      rw [h1, h2]
  | succ k ih =>
    intro p hp
    have e1 : p * 2 ^ (k + 1) = 2 * p * 2 ^ k := by ring
    have e2 : (p + 1) * 2 ^ (k + 1) = (2 * p + 2) * 2 ^ k := by ring
    have hc1 : ∀ i, 2 * p * 2 ^ k ≤ i → i < (2 * p + 1) * 2 ^ k →
        i ≠ leaves.length := by
      intro i h1 h2
      refine hp i (by rw [e1]; exact h1) ?_
      rw [e2]
      exact lt_of_lt_of_le h2 (mul_le_mul_right' (by omega) _)
    have hc2 : ∀ i, (2 * p + 1) * 2 ^ k ≤ i → i < (2 * p + 1 + 1) * 2 ^ k →
        i ≠ leaves.length := by
      intro i h1 h2
      refine hp i ?_ ?_
      · rw [e1]
        exact le_trans (mul_le_mul_right' (by omega) _) h1
      · rw [e2]
        exact lt_of_lt_of_le h2 (mul_le_mul_right' (by omega) _)
    rw [canonNode, canonNode, ih (2 * p) hc1, ih (2 * p + 1) hc2]

theorem getElem?_append_singleton (leaves : List Nat) (v : Nat) :
    (leaves ++ [v]).get? leaves.length = some v := by
  rw [List.get?_append_right le_rfl]
  simp

end MT

namespace MT

theorem heapIdx_parity {d l : Nat} (hl : l < d) (q : Nat) :
    heapIdx (2 ^ d) l q % 2 = (q + 1) % 2 := by
  rw [heapIdx_pow (le_of_lt hl)]
  have h2 : 2 ^ (d - l) % 2 = 0 := by
    have he : d - l = (d - l - 1) + 1 := by omega
    rw [he, Nat.pow_succ]
    omega
  have h1 : (1 : Nat) ≤ 2 ^ (d - l) := Nat.one_le_two_pow
  omega

theorem heapIdx_parent_odd {d l : Nat} (hl : l < d) {q : Nat} (hq : q % 2 = 0) :
    (heapIdx (2 ^ d) l q - 1) / 2 = heapIdx (2 ^ d) (l + 1) (q / 2) := by
  rw [heapIdx_pow (le_of_lt hl), heapIdx_pow (by omega)]
  have he : 2 ^ (d - l) = 2 * 2 ^ (d - (l + 1)) := by
    rw [← Nat.pow_succ']
    congr 1
    omega
  have h1 : (1 : Nat) ≤ 2 ^ (d - (l + 1)) := Nat.one_le_two_pow
  omega

theorem heapIdx_parent_even {d l : Nat} (hl : l < d) {q : Nat} (hq : q % 2 = 1) :
    (heapIdx (2 ^ d) l q - 2) / 2 = heapIdx (2 ^ d) (l + 1) (q / 2) := by
  rw [heapIdx_pow (le_of_lt hl), heapIdx_pow (by omega)]
  have he : 2 ^ (d - l) = 2 * 2 ^ (d - (l + 1)) := by
    rw [← Nat.pow_succ']
    congr 1
    omega
  have h1 : (1 : Nat) ≤ 2 ^ (d - (l + 1)) := Nat.one_le_two_pow
  omega

theorem heapIdx_sib_right {d l : Nat} (hl : l ≤ d) (q : Nat) :
    heapIdx (2 ^ d) l q + 1 = heapIdx (2 ^ d) l (q + 1) := by
  rw [heapIdx_pow hl, heapIdx_pow hl]
  omega

theorem heapIdx_sib_left {d l : Nat} (hl : l ≤ d) {q : Nat} (hq : 1 ≤ q) :
    heapIdx (2 ^ d) l q - 1 = heapIdx (2 ^ d) l (q - 1) := by
  rw [heapIdx_pow hl, heapIdx_pow hl]
  have h1 : (1 : Nat) ≤ 2 ^ (d - l) := Nat.one_le_two_pow
  omega

theorem div_pow_succ (n j : Nat) : n / 2 ^ j / 2 = n / 2 ^ (j + 1) := by
  rw [Nat.div_div_eq_div_mul, Nat.pow_succ]

theorem div_lt_pow_sub {d j n : Nat} (hj : j ≤ d) (hn : n < 2 ^ d) :
    n / 2 ^ j < 2 ^ (d - j) := by
  apply Nat.div_lt_of_lt_mul
  calc n < 2 ^ d := hn
    _ = 2 ^ j * 2 ^ (d - j) := by
        rw [← Nat.pow_add]
        congr 1
        omega

theorem succ_lt_of_even_lt {q m : Nat} (hm : 1 ≤ m) (hq : q % 2 = 0)
    (h : q < 2 ^ m) : q + 1 < 2 ^ m := by
  have h2 : 2 ^ m % 2 = 0 := by
    have he : m = (m - 1) + 1 := by omega
    rw [he, Nat.pow_succ]
    omega
  omega

theorem idxOf_get? {v : Nat} : ∀ {l : List Nat} {i : Nat}, idxOf v l = some i →
    l.get? i = some v ∧ i < l.length := by
  intro l
  induction l with
  | nil => intro i h; simp [idxOf] at h
  | cons x rest ih =>
    intro i h
    rw [idxOf] at h
    by_cases hx : x = v
    · rw [if_pos hx] at h
      injection h with h'
      subst hx
      rw [← h']
      exact ⟨rfl, Nat.succ_pos _⟩
    · rw [if_neg hx] at h
      rcases ho : idxOf v rest with _ | j
      · rw [ho] at h
        simp at h
      · rw [ho] at h
        simp only [Option.map_some'] at h
        injection h with h'
        obtain ⟨hg, hlt⟩ := ih ho
        rw [← h']
        refine ⟨?_, by simpa using Nat.succ_lt_succ hlt⟩
        rw [List.get?_cons_succ]
        exact hg

theorem inv_node_canon {H : HashFns} {t : MerkleTree} (hinv : Inv H t)
    {d : Nat} (hcap : t.capacity = 2 ^ d) {l p : Nat} (hl : l ≤ d)
    (hp : p < 2 ^ (d - l))
    (hcase : l ≤ depthOf t.values.length ∨ t.values.length ≤ p * 2 ^ l) :
    get_node H t.capacity t.node_map (heapIdx t.capacity l p) =
      canonNode H t.values l p := by
  obtain ⟨hc1, hc2, hc3, hc4, hc5⟩ := hinv
  have hdiv : t.capacity / 2 ^ l = 2 ^ (d - l) := by
    rw [hcap, Nat.pow_div hl (by norm_num)]
  rcases hcase with hle | hout
  · exact hc4 l p hle (by rw [hdiv]; exact hp)
  · have hcd : l ≤ capDepth t.capacity := by
      rw [hcap, capDepth_pow]
      exact hl
    have hnone := hc5 l p hcd (by rw [hdiv]; exact hp) hout
    rw [hcap] at hnone ⊢
    rw [get_node_none hl hp hnone]
    rw [canonNode_default H _ l p hout]

end MT

namespace MT

theorem climb_spec (H : HashFns) (d : Nat) (W : List Nat) (n : Nat) :
    ∀ (k j : Nat) (m : List (Nat × Nat)),
      j + k ≤ d →
      n < 2 ^ (j + k) →
      (∀ l p, j ≤ l → l < j + k → p < 2 ^ (d - l) →
        (p = n / 2 ^ l + 1 ∨ p + 1 = n / 2 ^ l) →
        get_node H (2 ^ d) m (heapIdx (2 ^ d) l p) = canonNode H W l p) →
      (∀ l, j < l → l ≤ j + k →
        get_node H (2 ^ d)
          (climb H (2 ^ d) k m (heapIdx (2 ^ d) j (n / 2 ^ j))
            (canonNode H W j (n / 2 ^ j)))
          (heapIdx (2 ^ d) l (n / 2 ^ l)) = canonNode H W l (n / 2 ^ l)) ∧
      (∀ i, (∀ l, j < l → l ≤ j + k → i ≠ heapIdx (2 ^ d) l (n / 2 ^ l)) →
        assocGet i
          (climb H (2 ^ d) k m (heapIdx (2 ^ d) j (n / 2 ^ j))
            (canonNode H W j (n / 2 ^ j))) = assocGet i m) := by
  intro k
  induction k with
  | zero =>
    intro j m hjk hn hsib
    constructor
    · intro l h1 h2
      omega
    · intro i hi
      rw [climb]
  | succ k ih =>
    intro j m hjk hn hsib
    have hjd : j < d := by omega
    have hnd : n < 2 ^ d :=
      lt_of_lt_of_le hn (Nat.pow_le_pow_right (by norm_num) hjk)
    have hq : n / 2 ^ j < 2 ^ (d - j) := div_lt_pow_sub (le_of_lt hjd) hnd
    have hq1 : n / 2 ^ (j + 1) < 2 ^ (d - (j + 1)) :=
      div_lt_pow_sub (by omega) hnd
    by_cases hqp : n / 2 ^ j % 2 = 0
    · -- current node is a left child: its heap index is odd
      have hodd : heapIdx (2 ^ d) j (n / 2 ^ j) % 2 = 1 := by
        rw [heapIdx_parity hjd]
        omega
      have e1 : 2 * (n / 2 ^ (j + 1)) = n / 2 ^ j := by
        rw [← div_pow_succ]
        omega
      have hsibval : get_node H (2 ^ d) m (heapIdx (2 ^ d) j (n / 2 ^ j + 1)) =
          canonNode H W j (n / 2 ^ j + 1) :=
        hsib j (n / 2 ^ j + 1) le_rfl (by omega)
          (succ_lt_of_even_lt (by omega) hqp hq) (Or.inl rfl)
      have hparent : canonNode H W (j + 1) (n / 2 ^ (j + 1)) =
          H.hashTwo (canonNode H W j (n / 2 ^ j))
            (canonNode H W j (n / 2 ^ j + 1)) := by
        rw [canonNode, e1]
      have hclimb_eq :
          climb H (2 ^ d) (k + 1) m (heapIdx (2 ^ d) j (n / 2 ^ j))
            (canonNode H W j (n / 2 ^ j)) =
          climb H (2 ^ d) k
            (assocSet (heapIdx (2 ^ d) (j + 1) (n / 2 ^ (j + 1)))
              (canonNode H W (j + 1) (n / 2 ^ (j + 1))) m)
            (heapIdx (2 ^ d) (j + 1) (n / 2 ^ (j + 1)))
            (canonNode H W (j + 1) (n / 2 ^ (j + 1))) := by
        simp only [climb]
        rw [if_pos hodd, heapIdx_sib_right (le_of_lt hjd), hsibval,
          heapIdx_parent_odd hjd hqp, div_pow_succ, ← hparent]
      rw [hclimb_eq]
      -- prepare the inductive hypothesis at level j + 1
      have hsib' : ∀ l p, j + 1 ≤ l → l < (j + 1) + k → p < 2 ^ (d - l) →
          (p = n / 2 ^ l + 1 ∨ p + 1 = n / 2 ^ l) →
          get_node H (2 ^ d)
            (assocSet (heapIdx (2 ^ d) (j + 1) (n / 2 ^ (j + 1)))
              (canonNode H W (j + 1) (n / 2 ^ (j + 1))) m)
            (heapIdx (2 ^ d) l p) = canonNode H W l p := by
        intro l p h1 h2 h3 h4
        have hne : heapIdx (2 ^ d) l p ≠
            heapIdx (2 ^ d) (j + 1) (n / 2 ^ (j + 1)) := by
          intro heq
          obtain ⟨hll, hpp⟩ := heapIdx_inj (by omega) (by omega) h3 hq1 heq
          subst hll
          omega
        rw [get_node_congr (assocGet_set_ne hne _ m)]
        exact hsib l p (by omega) (by omega) h3 h4
      obtain ⟨ihc1, ihc2⟩ := ih (j + 1)
        (assocSet (heapIdx (2 ^ d) (j + 1) (n / 2 ^ (j + 1)))
          (canonNode H W (j + 1) (n / 2 ^ (j + 1))) m)
        (by omega) (by rw [show j + 1 + k = j + (k + 1) by omega]; exact hn) hsib'
      constructor
      · intro l h1 h2
        by_cases hl : l = j + 1
        · subst hl
          have hip : heapIdx (2 ^ d) (j + 1) (n / 2 ^ (j + 1)) ≠
              heapIdx (2 ^ d) (j + 1) (n / 2 ^ (j + 1)) ∨ True := Or.inr trivial
          have hnp : ∀ l', j + 1 < l' → l' ≤ (j + 1) + k →
              heapIdx (2 ^ d) (j + 1) (n / 2 ^ (j + 1)) ≠
                heapIdx (2 ^ d) l' (n / 2 ^ l') := by
            intro l' hl1 hl2 heq
            obtain ⟨hll, _⟩ := heapIdx_inj (by omega) (by omega) hq1
              (div_lt_pow_sub (by omega) hnd) heq
            omega
          rw [get_node_congr (ihc2 _ hnp)]
          rw [get_node_some (assocGet_set_eq _ _ m)]
        · exact ihc1 l (by omega) (by omega)
      · intro i hi
        rw [ihc2 i (fun l' h1 h2 => hi l' (by omega) (by omega))]
        exact assocGet_set_ne (hi (j + 1) (by omega) (by omega)) _ m
    · -- current node is a right child: its heap index is even
      have hqp1 : n / 2 ^ j % 2 = 1 :=
        (Nat.mod_two_eq_zero_or_one _).resolve_left hqp
      have hqge1 : 1 ≤ n / 2 ^ j := by
        rcases Nat.eq_zero_or_pos (n / 2 ^ j) with h0 | h1
        · rw [h0] at hqp1
          simp at hqp1
        · exact h1
      have heven : ¬ heapIdx (2 ^ d) j (n / 2 ^ j) % 2 = 1 := by
        rw [heapIdx_parity hjd]
        omega
      have e1 : 2 * (n / 2 ^ (j + 1)) = n / 2 ^ j - 1 := by
        rw [← div_pow_succ]
        omega
      have hsibval : get_node H (2 ^ d) m (heapIdx (2 ^ d) j (n / 2 ^ j - 1)) =
          canonNode H W j (n / 2 ^ j - 1) :=
        hsib j (n / 2 ^ j - 1) le_rfl (by omega)
          (lt_of_le_of_lt (Nat.sub_le _ _) hq)
          (Or.inr (Nat.sub_add_cancel hqge1))
      have hparent : canonNode H W (j + 1) (n / 2 ^ (j + 1)) =
          H.hashTwo (canonNode H W j (n / 2 ^ j - 1))
            (canonNode H W j (n / 2 ^ j)) := by
        rw [canonNode, e1, Nat.sub_add_cancel hqge1]
      have hclimb_eq :
          climb H (2 ^ d) (k + 1) m (heapIdx (2 ^ d) j (n / 2 ^ j))
            (canonNode H W j (n / 2 ^ j)) =
          climb H (2 ^ d) k
            (assocSet (heapIdx (2 ^ d) (j + 1) (n / 2 ^ (j + 1)))
              (canonNode H W (j + 1) (n / 2 ^ (j + 1))) m)
            (heapIdx (2 ^ d) (j + 1) (n / 2 ^ (j + 1)))
            (canonNode H W (j + 1) (n / 2 ^ (j + 1))) := by
        simp only [climb]
        rw [if_neg heven, heapIdx_sib_left (le_of_lt hjd) hqge1, hsibval,
          heapIdx_parent_even hjd hqp1, div_pow_succ, ← hparent]
      rw [hclimb_eq]
      have hsib' : ∀ l p, j + 1 ≤ l → l < (j + 1) + k → p < 2 ^ (d - l) →
          (p = n / 2 ^ l + 1 ∨ p + 1 = n / 2 ^ l) →
          get_node H (2 ^ d)
            (assocSet (heapIdx (2 ^ d) (j + 1) (n / 2 ^ (j + 1)))
              (canonNode H W (j + 1) (n / 2 ^ (j + 1))) m)
            (heapIdx (2 ^ d) l p) = canonNode H W l p := by
        intro l p h1 h2 h3 h4
        have hne : heapIdx (2 ^ d) l p ≠
            heapIdx (2 ^ d) (j + 1) (n / 2 ^ (j + 1)) := by
          intro heq
          obtain ⟨hll, hpp⟩ := heapIdx_inj (by omega) (by omega) h3 hq1 heq
          subst hll
          omega
        rw [get_node_congr (assocGet_set_ne hne _ m)]
        exact hsib l p (by omega) (by omega) h3 h4
      obtain ⟨ihc1, ihc2⟩ := ih (j + 1)
        (assocSet (heapIdx (2 ^ d) (j + 1) (n / 2 ^ (j + 1)))
          (canonNode H W (j + 1) (n / 2 ^ (j + 1))) m)
        (by omega) (by rw [show j + 1 + k = j + (k + 1) by omega]; exact hn) hsib'
      constructor
      · intro l h1 h2
        by_cases hl : l = j + 1
        · subst hl
          have hnp : ∀ l', j + 1 < l' → l' ≤ (j + 1) + k →
              heapIdx (2 ^ d) (j + 1) (n / 2 ^ (j + 1)) ≠
                heapIdx (2 ^ d) l' (n / 2 ^ l') := by
            intro l' hl1 hl2 heq
            obtain ⟨hll, _⟩ := heapIdx_inj (by omega) (by omega) hq1
              (div_lt_pow_sub (by omega) hnd) heq
            omega
          rw [get_node_congr (ihc2 _ hnp)]
          rw [get_node_some (assocGet_set_eq _ _ m)]
        · exact ihc1 l (by omega) (by omega)
      · intro i hi
        rw [ihc2 i (fun l' h1 h2 => hi l' (by omega) (by omega))]
        exact assocGet_set_ne (hi (j + 1) (by omega) (by omega)) _ m

end MT

namespace MT

theorem insertAux_inv (H : HashFns) (t : MerkleTree) (v d : Nat)
    (hinv : Inv H t) (hcap : t.capacity = 2 ^ d)
    (hlt : t.values.length < t.capacity) (hv : v ∉ t.values) :
    (insertAux H t v).1 = true ∧
    (insertAux H t v).2.values = t.values ++ [v] ∧
    (insertAux H t v).2.capacity = t.capacity ∧
    Inv H (insertAux H t v).2 := by
  obtain ⟨hI1, hI2, hI3, hI4, hI5⟩ := hinv
  have hinv' : Inv H t := ⟨hI1, hI2, hI3, hI4, hI5⟩
  have hc' : ¬ (t.values.contains v = true) := by simpa using hv
  have hone : (1 : Nat) ≤ 2 ^ d := Nat.one_le_two_pow
  have hn_cap : t.values.length < 2 ^ d := by
    rw [← hcap]
    exact hlt
  have ht' : depthOf (t.values.length + 1) ≤ d := depthOf_le (by omega)
  have hnt' : t.values.length < 2 ^ depthOf (t.values.length + 1) :=
    Nat.lt_of_succ_le (le_pow_depthOf _)
  have hq0 : t.values.length / 2 ^ 0 < 2 ^ (d - 0) :=
    div_lt_pow_sub (Nat.zero_le d) hn_cap
  have hsib : ∀ l p, 0 ≤ l → l < 0 + depthOf (t.values.length + 1) →
      p < 2 ^ (d - l) →
      (p = t.values.length / 2 ^ l + 1 ∨ p + 1 = t.values.length / 2 ^ l) →
      get_node H (2 ^ d)
        (assocSet (heapIdx (2 ^ d) 0 (t.values.length / 2 ^ 0))
          (canonNode H (t.values ++ [v]) 0 (t.values.length / 2 ^ 0)) t.node_map)
        (heapIdx (2 ^ d) l p) = canonNode H (t.values ++ [v]) l p := by
    intro l p _ hlt' hp hor
    have hl_d : l ≤ d := by omega
    have hldo : l ≤ depthOf t.values.length := by
      have := depthOf_succ_le t.values.length
      omega
    have hne : heapIdx (2 ^ d) l p ≠ heapIdx (2 ^ d) 0 (t.values.length / 2 ^ 0) := by
      by_cases hl0 : l = 0
      · subst hl0
        simp only [pow_zero, Nat.div_one] at hor ⊢
        rw [heapIdx_pow (Nat.zero_le d) p, heapIdx_pow (Nat.zero_le d) t.values.length]
        omega
      · intro heq
        obtain ⟨he1, _⟩ := heapIdx_inj hl_d (Nat.zero_le d) hp hq0 heq
        exact hl0 he1
    rw [get_node_congr (assocGet_set_ne hne _ _)]
    rcases hor with hor | hor
    · have hplow : t.values.length < p * 2 ^ l := by
        have hmod : t.values.length % 2 ^ l < 2 ^ l :=
          Nat.mod_lt _ (pow_pos (by norm_num) l)
        calc t.values.length
            = 2 ^ l * (t.values.length / 2 ^ l) + t.values.length % 2 ^ l :=
              (Nat.div_add_mod _ _).symm
          _ < 2 ^ l * (t.values.length / 2 ^ l) + 2 ^ l := by omega
          _ = (t.values.length / 2 ^ l + 1) * 2 ^ l := by ring
          _ = p * 2 ^ l := by rw [hor]
      have hcanon : canonNode H (t.values ++ [v]) l p = canonNode H t.values l p := by
        refine canonNode_append_out H t.values v l p ?_
        intro i h1 h2
        have h3 := lt_of_lt_of_le hplow h1
        omega
      rw [hcanon]
      have hold := inv_node_canon hinv' hcap hl_d hp (Or.inr (le_of_lt hplow))
      rw [hcap] at hold
      exact hold
    · have hhigh : (p + 1) * 2 ^ l ≤ t.values.length := by
        rw [hor]
        exact Nat.div_mul_le_self _ _
      have hcanon : canonNode H (t.values ++ [v]) l p = canonNode H t.values l p := by
        refine canonNode_append_out H t.values v l p ?_
        intro i h1 h2
        have h3 := lt_of_lt_of_le h2 hhigh
        omega
      rw [hcanon]
      have hold := inv_node_canon hinv' hcap hl_d hp (Or.inl hldo)
      rw [hcap] at hold
      exact hold
  have hred : insertAux H t v = (true,
      { values := t.values ++ [v],
        node_map := climb H t.capacity (depthOf ((t.values ++ [v]).length))
          (assocSet (t.values.length + t.capacity - 1) (H.hashValue v) t.node_map)
          (t.values.length + t.capacity - 1) (H.hashValue v),
        capacity := t.capacity }) := by
    rw [insertAux, if_neg hc']
  have e_len : (t.values ++ [v]).length = t.values.length + 1 := by simp
  have e_idx : t.values.length + 2 ^ d - 1 =
      heapIdx (2 ^ d) 0 (t.values.length / 2 ^ 0) := by
    rw [heapIdx_pow (Nat.zero_le d), Nat.sub_zero, pow_zero, Nat.div_one]
    omega
  have e_leaf : H.hashValue v =
      canonNode H (t.values ++ [v]) 0 (t.values.length / 2 ^ 0) := by
    rw [pow_zero, Nat.div_one, canonNode, getElem?_append_singleton]
  rw [hred]
  refine ⟨rfl, rfl, rfl, ?_⟩
  obtain ⟨C1, C2⟩ := climb_spec H d (t.values ++ [v]) t.values.length
    (depthOf (t.values.length + 1)) 0
    (assocSet (heapIdx (2 ^ d) 0 (t.values.length / 2 ^ 0))
      (canonNode H (t.values ++ [v]) 0 (t.values.length / 2 ^ 0)) t.node_map)
    (by omega) (by rw [Nat.zero_add]; exact hnt') hsib
  show Inv H _
  rw [hcap, e_len, e_idx, e_leaf, Inv]
  refine ⟨?_, ?_, ?_, ?_, ?_⟩
  · show (2 : Nat) ^ d = 2 ^ capDepth (2 ^ d)
    rw [capDepth_pow]
  · show (t.values ++ [v]).length ≤ 2 ^ d
    rw [e_len]
    omega
  · show (t.values ++ [v]).Nodup
    rw [List.nodup_append]
    refine ⟨hI3, List.nodup_singleton v, ?_⟩
    intro x hx hx'
    rw [List.mem_singleton] at hx'
    subst hx'
    exact hv hx
  · intro l p hld hp
    rw [e_len] at hld
    have hl_d : l ≤ d := le_trans hld ht'
    rw [Nat.pow_div hl_d (by norm_num)] at hp
    by_cases hpq : p = t.values.length / 2 ^ l
    · subst hpq
      by_cases hl0 : l = 0
      · subst hl0
        have hnp : ∀ l', 0 < l' → l' ≤ 0 + depthOf (t.values.length + 1) →
            heapIdx (2 ^ d) 0 (t.values.length / 2 ^ 0) ≠
              heapIdx (2 ^ d) l' (t.values.length / 2 ^ l') := by
          intro l' h1 h2 heq
          obtain ⟨he1, _⟩ := heapIdx_inj (Nat.zero_le d) (by omega) hq0
            (div_lt_pow_sub (by omega) hn_cap) heq
          omega
        rw [get_node_congr (C2 _ hnp)]
        rw [get_node_some (assocGet_set_eq _ _ _)]
      · exact C1 l (by omega) (by omega)
    · have hnp : ∀ l', 0 < l' → l' ≤ 0 + depthOf (t.values.length + 1) →
          heapIdx (2 ^ d) l p ≠ heapIdx (2 ^ d) l' (t.values.length / 2 ^ l') := by
        intro l' h1 h2 heq
        obtain ⟨he1, he2⟩ := heapIdx_inj hl_d (by omega) hp
          (div_lt_pow_sub (by omega) hn_cap) heq
        subst he1
        exact hpq he2
      rw [get_node_congr (C2 _ hnp)]
      have hne_leaf : heapIdx (2 ^ d) l p ≠
          heapIdx (2 ^ d) 0 (t.values.length / 2 ^ 0) := by
        by_cases hl0 : l = 0
        · subst hl0
          intro heq
          rw [heapIdx_pow (Nat.zero_le d) p,
            heapIdx_pow (Nat.zero_le d) (t.values.length / 2 ^ 0)] at heq
          apply hpq
          omega
        · intro heq
          obtain ⟨he1, _⟩ := heapIdx_inj hl_d (Nat.zero_le d) hp hq0 heq
          exact hl0 he1
      rw [get_node_congr (assocGet_set_ne hne_leaf _ _)]
      have hcanon : canonNode H (t.values ++ [v]) l p = canonNode H t.values l p := by
        refine canonNode_append_out H t.values v l p ?_
        intro i h1 h2
        intro hieq
        subst hieq
        exact hpq ((Nat.div_eq_of_lt_le h1 h2).symm)
      rw [hcanon]
      have hcase : l ≤ depthOf t.values.length ∨ t.values.length ≤ p * 2 ^ l := by
        by_cases hldo : l ≤ depthOf t.values.length
        · exact Or.inl hldo
        · right
          have hl_eq : l = depthOf (t.values.length + 1) := by
            have := depthOf_succ_le t.values.length
            omega
          have hppos : 1 ≤ p := by
            rcases Nat.eq_zero_or_pos p with h0 | h1
            · exfalso
              apply hpq
              rw [h0]
              exact (Nat.div_eq_of_lt (by rw [hl_eq]; exact hnt')).symm
            · exact h1
          calc t.values.length ≤ 2 ^ l := by
                rw [hl_eq]
                exact le_of_lt hnt'
            _ = 1 * 2 ^ l := (one_mul _).symm
            _ ≤ p * 2 ^ l := mul_le_mul_right' hppos _
      have hold := inv_node_canon hinv' hcap hl_d hp hcase
      rw [hcap] at hold
      exact hold
  · intro l p hld hp hout
    rw [capDepth_pow] at hld
    rw [Nat.pow_div hld (by norm_num)] at hp
    rw [e_len] at hout
    have hqle := Nat.div_mul_le_self t.values.length (2 ^ l)
    have hC2cond : ∀ l', 0 < l' → l' ≤ 0 + depthOf (t.values.length + 1) →
        heapIdx (2 ^ d) l p ≠ heapIdx (2 ^ d) l' (t.values.length / 2 ^ l') := by
      intro l' h1 h2 heq
      obtain ⟨he1, he2⟩ := heapIdx_inj hld (by omega) hp
        (div_lt_pow_sub (by omega) hn_cap) heq
      subst he1
      rw [he2] at hout
      omega
    rw [C2 _ hC2cond]
    have hne_leaf : heapIdx (2 ^ d) l p ≠
        heapIdx (2 ^ d) 0 (t.values.length / 2 ^ 0) := by
      by_cases hl0 : l = 0
      · subst hl0
        simp only [pow_zero, Nat.div_one, mul_one] at hout ⊢
        rw [heapIdx_pow (Nat.zero_le d) p, heapIdx_pow (Nat.zero_le d) t.values.length]
        omega
      · intro heq
        obtain ⟨he1, _⟩ := heapIdx_inj hld (Nat.zero_le d) hp hq0 heq
        exact hl0 he1
    rw [assocGet_set_ne hne_leaf _ _]
    have hold := hI5 l p (by rw [hcap, capDepth_pow]; exact hld)
      (by rw [hcap, Nat.pow_div hld (by norm_num)]; exact hp) (by omega)
    rw [hcap] at hold
    exact hold

end MT

namespace MT

theorem withCapacity_inv (H : HashFns) (c : Nat) : Inv H (withCapacity c) := by
  rw [Inv, withCapacity]
  dsimp only
  refine ⟨?_, ?_, ?_, ?_, ?_⟩
  · rw [np2, capDepth_pow]
  · simp
  · exact List.nodup_nil
  · intro l p hl hp
    have hd0 : depthOf (List.length ([] : List Nat)) = 0 := by
      simp only [List.length_nil]
      rw [depthOf_eq, Nat.clog_zero_right]
    rw [hd0] at hl
    have hl0 : l = 0 := by omega
    subst hl0
    rw [np2] at hp ⊢
    have hp' : p < 2 ^ (clog2F c - 0) := by
      rw [Nat.pow_div (Nat.zero_le _) (by norm_num)] at hp
      exact hp
    rw [get_node_none (Nat.zero_le _) hp'
      (show assocGet (heapIdx (2 ^ clog2F c) 0 p) ([] : List (Nat × Nat)) = none
        from rfl)]
    rw [canonNode_default H [] 0 p (by simp)]
  · intro l p _ _ _
    rfl

theorem foldl_insertAux_inv (H : HashFns) : ∀ (vs : List Nat) (acc : MerkleTree),
    Inv H acc → acc.values.length + vs.length ≤ acc.capacity →
    (∀ x ∈ vs, x ∉ acc.values) → vs.Nodup →
    Inv H (vs.foldl (fun a w => (insertAux H a w).2) acc) ∧
    (vs.foldl (fun a w => (insertAux H a w).2) acc).values = acc.values ++ vs ∧
    (vs.foldl (fun a w => (insertAux H a w).2) acc).capacity = acc.capacity := by
  intro vs
  induction vs with
  | nil =>
    intro acc h1 h2 h3 h4
    exact ⟨h1, by simp, rfl⟩
  | cons w rest ih =>
    intro acc h1 h2 h3 h4
    simp only [List.length_cons] at h2
    rw [List.foldl_cons]
    have hlen : acc.values.length < acc.capacity := by omega
    obtain ⟨hb1, hb2, hb3, hb4⟩ := insertAux_inv H acc w (capDepth acc.capacity)
      h1 h1.1 hlen (h3 w (List.mem_cons_self _ _))
    have hnotmem : ∀ x ∈ rest, x ∉ (insertAux H acc w).2.values := by
      intro x hx hmem
      rw [hb2] at hmem
      rcases List.mem_append.mp hmem with hm | hm
      · exact h3 x (List.mem_cons_of_mem _ hx) hm
      · rw [List.mem_singleton] at hm
        subst hm
        exact (List.nodup_cons.mp h4).1 hx
    have hlen2 : (insertAux H acc w).2.values.length + rest.length ≤
        (insertAux H acc w).2.capacity := by
      rw [hb2, hb3]
      simp only [List.length_append, List.length_cons, List.length_nil]
      omega
    obtain ⟨ih1, ih2, ih3⟩ := ih (insertAux H acc w).2 hb4 hlen2 hnotmem
      (List.nodup_cons.mp h4).2
    refine ⟨ih1, ?_, ?_⟩
    · rw [ih2, hb2]
      simp
    · rw [ih3, hb3]

theorem realloc_inv (H : HashFns) (t : MerkleTree) (hinv : Inv H t) :
    Inv H (realloc H t) ∧ (realloc H t).values = t.values ∧
    (realloc H t).capacity = t.capacity * 2 := by
  rw [realloc]
  have hwc : Inv H (withCapacity (t.capacity * 2)) := withCapacity_inv H _
  have hwcap : (withCapacity (t.capacity * 2)).capacity = t.capacity * 2 := by
    show np2 (t.capacity * 2) = t.capacity * 2
    rw [hinv.1, ← Nat.pow_succ]
    exact np2_pow _
  have hwval : (withCapacity (t.capacity * 2)).values = [] := rfl
  have hb1 : (withCapacity (t.capacity * 2)).values.length + t.values.length ≤
      (withCapacity (t.capacity * 2)).capacity := by
    rw [hwval, hwcap]
    simp only [List.length_nil, Nat.zero_add]
    have h2 := hinv.2.1
    omega
  have hb2 : ∀ x ∈ t.values, x ∉ (withCapacity (t.capacity * 2)).values := by
    intro x hx
    rw [hwval]
    exact List.not_mem_nil x
  obtain ⟨f1, f2, f3⟩ := foldl_insertAux_inv H t.values (withCapacity (t.capacity * 2))
    hwc hb1 hb2 hinv.2.2.1
  refine ⟨f1, ?_, ?_⟩
  · rw [f2, hwval]
    simp
  · rw [f3, hwcap]

theorem insert_inv (H : HashFns) (t : MerkleTree) (v : Nat) (hinv : Inv H t) :
    Inv H (insert H t v).2 := by
  rw [insert]
  by_cases hc : t.values.contains v = true
  · rw [if_pos hc]
    exact hinv
  · rw [if_neg hc]
    have hv : v ∉ t.values := fun hm => hc (by simpa using hm)
    by_cases hfull : t.capacity = t.values.length
    · rw [if_pos hfull]
      obtain ⟨r1, r2, r3⟩ := realloc_inv H t hinv
      have hpos : 1 ≤ t.capacity := by
        rw [hinv.1]
        exact Nat.one_le_two_pow
      have hrlen : (realloc H t).values.length < (realloc H t).capacity := by
        rw [r2, r3]
        have h2 := hinv.2.1
        omega
      have hrv : v ∉ (realloc H t).values := by
        rw [r2]
        exact hv
      exact (insertAux_inv H (realloc H t) v (capDepth (realloc H t).capacity)
        r1 r1.1 hrlen hrv).2.2.2
    · rw [if_neg hfull]
      have hlt : t.values.length < t.capacity := by
        have h2 := hinv.2.1
        omega
      exact (insertAux_inv H t v (capDepth t.capacity) hinv hinv.1 hlt hv).2.2.2

theorem buildTree_inv (H : HashFns) (cap0 : Nat) (vs : List Nat) :
    Inv H (buildTree H cap0 vs) := by
  rw [buildTree]
  have hgen : ∀ (l : List Nat) (acc : MerkleTree), Inv H acc →
      Inv H (l.foldl (fun a w => (insert H a w).2) acc) := by
    intro l
    induction l with
    | nil =>
      intro acc h
      exact h
    | cons w rest ih =>
      intro acc h
      rw [List.foldl_cons]
      exact ih _ (insert_inv H acc w h)
  exact hgen vs _ (withCapacity_inv H cap0)

end MT

namespace MT

theorem verifyFold_authPath (H : HashFns) (d : Nat) (values : List Nat)
    (nm : List (Nat × Nat)) (htd : depthOf values.length ≤ d)
    (hagree : ∀ l p, l ≤ depthOf values.length → p < 2 ^ (d - l) →
      get_node H (2 ^ d) nm (heapIdx (2 ^ d) l p) = canonNode H values l p)
    (idx : Nat) (hidx : idx < values.length) :
    ∀ (k j : Nat), j + k ≤ depthOf values.length →
      verifyFold H (canonNode H values j (idx / 2 ^ j)) (idx / 2 ^ j)
        (authPath H (2 ^ d) nm k (heapIdx (2 ^ d) j (idx / 2 ^ j))) =
      canonNode H values (j + k) (idx / 2 ^ (j + k)) := by
  intro k
  induction k with
  | zero =>
    intro j hj
    rw [authPath, verifyFold, Nat.add_zero]
  | succ k ih =>
    intro j hj
    have hjd : j < d := by omega
    have hidxd : idx < 2 ^ d :=
      lt_of_lt_of_le hidx
        (le_trans (le_pow_depthOf _) (Nat.pow_le_pow_right (by norm_num) htd))
    have hq : idx / 2 ^ j < 2 ^ (d - j) := div_lt_pow_sub (le_of_lt hjd) hidxd
    have hih := ih (j + 1) (by omega)
    rw [show j + 1 + k = j + (k + 1) from by omega] at hih
    by_cases hqp : idx / 2 ^ j % 2 = 0
    · have hodd : heapIdx (2 ^ d) j (idx / 2 ^ j) % 2 = 1 := by
        rw [heapIdx_parity hjd]
        omega
      have e1 : 2 * (idx / 2 ^ (j + 1)) = idx / 2 ^ j := by
        rw [← div_pow_succ]
        omega
      simp only [authPath]
      rw [if_pos hodd]
      simp only [verifyFold]
      rw [if_pos hqp]
      rw [heapIdx_sib_right (le_of_lt hjd), heapIdx_parent_odd hjd hqp, div_pow_succ]
      rw [hagree j (idx / 2 ^ j + 1) (by omega)
        (succ_lt_of_even_lt (by omega) hqp hq)]
      rw [show H.hashTwo (canonNode H values j (idx / 2 ^ j))
            (canonNode H values j (idx / 2 ^ j + 1)) =
          canonNode H values (j + 1) (idx / 2 ^ (j + 1)) from by rw [canonNode, e1]]
      exact hih
    · have hqp1 : idx / 2 ^ j % 2 = 1 :=
        (Nat.mod_two_eq_zero_or_one _).resolve_left hqp
      have hqge1 : 1 ≤ idx / 2 ^ j := by
        rcases Nat.eq_zero_or_pos (idx / 2 ^ j) with h0 | h1
        · rw [h0] at hqp1
          simp at hqp1
        · exact h1
      have heven : ¬ heapIdx (2 ^ d) j (idx / 2 ^ j) % 2 = 1 := by
        rw [heapIdx_parity hjd]
        omega
      have e1 : 2 * (idx / 2 ^ (j + 1)) = idx / 2 ^ j - 1 := by
        rw [← div_pow_succ]
        omega
      simp only [authPath]
      rw [if_neg heven]
      simp only [verifyFold]
      rw [if_neg (by omega : ¬ idx / 2 ^ j % 2 = 0)]
      rw [heapIdx_sib_left (le_of_lt hjd) hqge1, heapIdx_parent_even hjd hqp1,
        div_pow_succ]
      rw [hagree j (idx / 2 ^ j - 1) (by omega)
        (lt_of_le_of_lt (Nat.sub_le _ _) hq)]
      rw [show H.hashTwo (canonNode H values j (idx / 2 ^ j - 1))
            (canonNode H values j (idx / 2 ^ j)) =
          canonNode H values (j + 1) (idx / 2 ^ (j + 1)) from by
        rw [canonNode, e1, Nat.sub_add_cancel hqge1]]
      exact hih

theorem auth_path_verifies_of_inv (H : HashFns) (t : MerkleTree) (hinv : Inv H t)
    (v idx : Nat) (path : List Nat)
    (hpath : get_authentication_path_for H t v = some (idx, path)) :
    verify_authentication_path H v idx path (t.root H) = true ∧
    compute_root_associated_to_path H v (idx, path) = t.root H := by
  obtain ⟨hI1, hI2, hI3, hI4, hI5⟩ := hinv
  rw [get_authentication_path_for] at hpath
  split at hpath
  · exact absurd hpath (by simp)
  next vi heq =>
    simp only [Option.some.injEq, Prod.mk.injEq] at hpath
    obtain ⟨hvi, hpe⟩ := hpath
    subst hvi
    subst hpe
    obtain ⟨hget, hlt⟩ := idxOf_get? heq
    have hcap : t.capacity = 2 ^ capDepth t.capacity := hI1
    have htd : depthOf t.values.length ≤ capDepth t.capacity :=
      depthOf_le (by rw [← hcap]; exact hI2)
    have hagree : ∀ l p, l ≤ depthOf t.values.length →
        p < 2 ^ (capDepth t.capacity - l) →
        get_node H (2 ^ capDepth t.capacity) t.node_map
          (heapIdx (2 ^ capDepth t.capacity) l p) = canonNode H t.values l p := by
      intro l p hl hp
      have hpd : p < t.capacity / 2 ^ l := by
        rw [hcap, Nat.pow_div (le_trans hl htd) (by norm_num)]
        exact hp
      have h := hI4 l p hl hpd
      rw [hcap] at h
      exact h
    have hone : (1 : Nat) ≤ 2 ^ capDepth t.capacity := Nat.one_le_two_pow
    have hstart : t.capacity + vi - 1 =
        heapIdx (2 ^ capDepth t.capacity) 0 (vi / 2 ^ 0) := by
      rw [heapIdx_pow (Nat.zero_le _), Nat.sub_zero, pow_zero, Nat.div_one]
      omega
    have hleaf : H.hashValue v = canonNode H t.values 0 (vi / 2 ^ 0) := by
      rw [pow_zero, Nat.div_one, canonNode, hget]
    have hfold := verifyFold_authPath H (capDepth t.capacity) t.values t.node_map
      htd hagree vi hlt (depthOf t.values.length) 0 (by omega)
    rw [Nat.zero_add] at hfold
    have hdiv0 : vi / 2 ^ depthOf t.values.length = 0 :=
      Nat.div_eq_of_lt (lt_of_lt_of_le hlt (le_pow_depthOf _))
    rw [hdiv0] at hfold
    have hdiv : t.capacity / 2 ^ depthOf t.values.length =
        2 ^ (capDepth t.capacity - depthOf t.values.length) := by
      conv_lhs => rw [hcap]
      rw [Nat.pow_div htd (by norm_num)]
    have hroot : t.root H = canonNode H t.values (depthOf t.values.length) 0 := by
      rw [MerkleTree.root]
      show get_node H t.capacity t.node_map
          (if capDepth t.capacity - depthOf t.values.length = 0 then 0
            else 2 ^ (capDepth t.capacity - depthOf t.values.length) - 1) =
        canonNode H t.values (depthOf t.values.length) 0
      have hri : (if capDepth t.capacity - depthOf t.values.length = 0 then 0
          else 2 ^ (capDepth t.capacity - depthOf t.values.length) - 1) =
          heapIdx t.capacity (depthOf t.values.length) 0 := by
        rw [heapIdx, hdiv]
        by_cases hdiff : capDepth t.capacity - depthOf t.values.length = 0
        · rw [if_pos hdiff, hdiff, pow_zero]
          omega
        · rw [if_neg hdiff]
          omega
      rw [hri]
      refine hI4 (depthOf t.values.length) 0 le_rfl ?_
      rw [hdiv]
      exact pow_pos (by norm_num) _
    have hmain : verifyFold H (H.hashValue v) vi
        (authPath H t.capacity t.node_map (depthOf t.values.length)
          (t.capacity + vi - 1)) = t.root H := by
      rw [hroot, hleaf, hstart]
      nth_rewrite 1 [hcap]
      nth_rewrite 2 [show vi = vi / 2 ^ 0 from by rw [pow_zero, Nat.div_one]]
      exact hfold
    constructor
    · rw [verify_authentication_path, hmain]
      exact beq_self_eq_true _
    · rw [compute_root_associated_to_path]
      exact hmain

end MT

namespace MT

/-- C4: for every value present in a merkle tree built by the public
operations, the (index, sibling-path) pair returned by
get_authentication_path_for recomputes the tree root under the fold whose
left/right order at each level is selected by the lowest bit of the index:
verify_authentication_path accepts it against the root, and
compute_root_associated_to_path (the membership-digest counterpart, which
uses the identical fold) returns exactly the root. -/
theorem merkle_auth_path_recomputes_root (H : HashFns) (cap0 : Nat)
    (vs : List Nat) (v idx : Nat) (path : List Nat)
    (hpath : get_authentication_path_for H (buildTree H cap0 vs) v =
      some (idx, path)) :
    verify_authentication_path H v idx path ((buildTree H cap0 vs).root H) = true ∧
    compute_root_associated_to_path H v (idx, path) =
      (buildTree H cap0 vs).root H :=
  auth_path_verifies_of_inv H (buildTree H cap0 vs) (buildTree_inv H cap0 vs)
    v idx path hpath

/-- C4 witness: a concrete three-leaf tree; the authentication path of value
20 is (1, [11, 63]) and it recomputes the root 362. -/
theorem merkle_auth_path_recomputes_root_witness :
    get_authentication_path_for ⟨fun v => v + 1, fun a b => 2 * a + 3 * b + 1⟩
        (buildTree ⟨fun v => v + 1, fun a b => 2 * a + 3 * b + 1⟩ 3 [10, 20, 30])
        20 = some (1, [11, 63]) ∧
    (verify_authentication_path ⟨fun v => v + 1, fun a b => 2 * a + 3 * b + 1⟩
        20 1 [11, 63]
        ((buildTree ⟨fun v => v + 1, fun a b => 2 * a + 3 * b + 1⟩ 3
          [10, 20, 30]).root ⟨fun v => v + 1, fun a b => 2 * a + 3 * b + 1⟩) =
        true ∧
      compute_root_associated_to_path
        ⟨fun v => v + 1, fun a b => 2 * a + 3 * b + 1⟩ 20 (1, [11, 63]) =
        (buildTree ⟨fun v => v + 1, fun a b => 2 * a + 3 * b + 1⟩ 3
          [10, 20, 30]).root ⟨fun v => v + 1, fun a b => 2 * a + 3 * b + 1⟩) :=
  ⟨by decide,
    merkle_auth_path_recomputes_root ⟨fun v => v + 1, fun a b => 2 * a + 3 * b + 1⟩
      3 [10, 20, 30] 20 1 [11, 63] (by decide)⟩

end MT
